import Mathlib

/-!
Verification development for the ProSLAM estimation core: a shallow
embedding of the relocalization engine (relocalizer.cpp) and of the
UVD alignment engine (uvd_aligner.cpp), together with theorems about
their behaviour.  Machine reals are modelled as exact rationals. -/

namespace ProSLAM

/-- One raw descriptor match returned by the place database for a reference
local map: query landmark identifier, reference landmark identifier and
descriptor distance (HBSTTree::Match, the database is an opaque external
collaborator, so matches arrive as an oracle input). -/
structure HMatch where
  object_query : Nat
  object_reference : Nat
  distance : ℚ
deriving DecidableEq

/-- Closure::Candidate — one (query landmark, reference landmark, distance)
tuple produced while grouping matches by query landmark. -/
structure Candidate where
  query : Nat
  reference : Nat
  distance : ℚ
deriving DecidableEq

/-- Closure::Correspondence — a disambiguated (query, reference) landmark
pair with vote count and confidence ratio. -/
structure Correspondence where
  query : Nat
  reference : Nat
  matching_count : Nat
  confidence : ℚ
deriving DecidableEq

/-- A local map, reduced to what the relocalizer core reads: its identifier
and the size of its appearance-descriptor vector. -/
structure LocalMap where
  identifier : Nat
  number_of_appearances : Nat
deriving DecidableEq

/-- A loop-closure hypothesis between a query and a reference local map
(Closure), carrying matched-landmark count, match ratio and the resolved
correspondences. -/
structure Closure where
  local_map_query : Nat
  local_map_reference : Nat
  number_of_matched_landmarks : Nat
  matching_ratio : ℚ
  correspondences : List Correspondence
deriving DecidableEq

/-- RelocalizerParameters — the configuration the relocalizer consults. -/
structure RelocalizerParameters where
  preliminary_minimum_interspace_queries : Nat
  preliminary_minimum_matching_ratio : ℚ
  minimum_number_of_matched_landmarks : Nat
  minimum_matches_per_correspondence : Nat
  maximum_descriptor_distance : ℚ
deriving DecidableEq

/-- The relocalizer's mutable state: the list of added local maps, the size
of the place database (number of images added to it), the pending closure
buffer, the used-reference mask, and a ghost counter of getchar() calls
(one getchar() is executed right after each closure is pushed). -/
structure RelocalizerState where
  added_local_maps : List LocalMap
  place_database_size : Nat
  closures : List Closure
  mask_id_references_for_correspondences : List Nat
  getchar_calls : Nat
deriving DecidableEq

/-- State of the relocalizer after construction: everything empty. -/
def initialRelocalizerState : RelocalizerState :=
  ⟨[], 0, [], [], 0⟩

/-- Relocalizer::clear — deletes pending closures and resets the
used-reference mask. -/
def relocalizerClear (st : RelocalizerState) : RelocalizerState :=
  { st with closures := [], mask_id_references_for_correspondences := [] }

/-- The counting loop of Relocalizer::_getCorrespondenceNN: walks the
candidate list keeping a multiset of reference identifiers seen so far
(only candidates whose reference is not masked are counted), the best
candidate and its count.  The multiset is modelled as the list of inserted
identifiers. -/
def voteLoop (mask : List Nat) :
    List Candidate → List Nat → Option Candidate → Nat → Option Candidate × Nat
  | [], _, match_best, count_best => (match_best, count_best)
  | m :: rest, counts, match_best, count_best =>
    if m.reference ∈ mask then
      voteLoop mask rest counts match_best count_best
    else
      let counts2 := m.reference :: counts
      let count_current := counts2.count m.reference
      if count_best < count_current then
        voteLoop mask rest counts2 (some m) count_current
      else
        voteLoop mask rest counts2 match_best count_best

/-- Relocalizer::_getCorrespondenceNN — resolves a candidate list sharing
one query landmark to at most one correspondence.  On success it returns
the correspondence (vote count, confidence = votes / candidate-list size)
and the mask extended with the winning reference identifier. -/
def getCorrespondenceNN (minimum_matches : Nat) (mask : List Nat)
    (matches_ : List Candidate) : Option (Correspondence × List Nat) :=
  match voteLoop mask matches_ [] none 0 with
  | (some match_best, count_best) =>
    if minimum_matches < count_best then
      some (⟨match_best.query, match_best.reference, count_best,
             (count_best : ℚ) / (matches_.length : ℚ)⟩,
            match_best.reference :: mask)
    else none
  | (none, _) => none

/-- Insertion into the ordered candidate map (std::map keyed by query
landmark identifier): a new key is placed at its sorted position, an
existing key has the candidate appended to its vector. -/
def insertCandidate (identifier : Nat) (c : Candidate) :
    List (Nat × List Candidate) → List (Nat × List Candidate)
  | [] => [(identifier, [c])]
  | (k, v) :: rest =>
    if identifier < k then (identifier, [c]) :: (k, v) :: rest
    else if identifier = k then (k, v ++ [c]) :: rest
    else (k, v) :: insertCandidate identifier c rest

/-- The grouping loop of Relocalizer::detectClosures: organizes the raw
matches of one reference local map per query landmark identifier
(Closure::CandidateMap). -/
def groupMatchesByLandmark (matches_ : List HMatch) : List (Nat × List Candidate) :=
  matches_.foldl
    (fun m mt =>
      insertCandidate mt.object_query ⟨mt.object_query, mt.object_reference, mt.distance⟩ m)
    []

/-- The correspondence-resolution loop of detectClosures: iterates the
candidate map in key order, threading the used-reference mask through
_getCorrespondenceNN and collecting the successful correspondences. -/
def resolveCorrespondences (minimum_matches : Nat) :
    List (Nat × List Candidate) → List Nat → List Correspondence × List Nat
  | [], mask => ([], mask)
  | (_, cands) :: rest, mask =>
    match getCorrespondenceNN minimum_matches mask cands with
    | some (c, mask2) =>
      let r := resolveCorrespondences minimum_matches rest mask2
      (c :: r.1, r.2)
    | none => resolveCorrespondences minimum_matches rest mask

/-- The body of the reference loop of Relocalizer::detectClosures for one
reference index: ratio test, grouping, matched-landmark test, mask reset,
correspondence resolution, closure push (followed by a getchar() call,
counted in the ghost field). -/
def processReference (p : RelocalizerParameters) (matches_for : Nat → List HMatch)
    (local_map_query : LocalMap) (index_reference : Nat)
    (st : RelocalizerState) : RelocalizerState :=
  let multiple_matches_mixed := matches_for index_reference
  let relative_number_of_matches : ℚ :=
    (multiple_matches_mixed.length : ℚ) / (local_map_query.number_of_appearances : ℚ)
  if relative_number_of_matches < p.preliminary_minimum_matching_ratio then st
  else
    let multiple_matches_per_landmark := groupMatchesByLandmark multiple_matches_mixed
    if multiple_matches_per_landmark.length < p.minimum_number_of_matched_landmarks then st
    else
      let r := resolveCorrespondences p.minimum_matches_per_correspondence
                 multiple_matches_per_landmark []
      { st with
        closures := st.closures ++
          [⟨local_map_query.identifier,
            (st.added_local_maps.getD index_reference ⟨0, 0⟩).identifier,
            multiple_matches_per_landmark.length,
            relative_number_of_matches,
            r.1⟩],
        mask_id_references_for_correspondences := r.2,
        getchar_calls := st.getchar_calls + 1 }

/-- Relocalizer::detectClosures — one detection cycle.  A null query is a
no-op.  Otherwise the local map is recorded; during warm-up (database size
below the minimum interspace) its appearances are only added to the place
database; past warm-up the database is queried and added simultaneously
(matchAndAdd, the per-reference match lists arrive through the oracle
matches_for) and every reference index below size − interspace is
evaluated. -/
def detectClosures (p : RelocalizerParameters) (matches_for : Nat → List HMatch)
    (local_map_query : Option LocalMap) (st : RelocalizerState) : RelocalizerState :=
  match local_map_query with
  | none => st
  | some lm =>
    let st1 := { st with added_local_maps := st.added_local_maps ++ [lm] }
    if st1.place_database_size < p.preliminary_minimum_interspace_queries then
      { st1 with place_database_size := st1.place_database_size + 1 }
    else
      let st2 := { st1 with place_database_size := st1.place_database_size + 1 }
      let maximum_index_reference :=
        st2.place_database_size - p.preliminary_minimum_interspace_queries
      (List.range maximum_index_reference).foldl
        (fun acc i => processReference p matches_for lm i acc) st2

/-- Feeding a sequence of (non-null) local maps to detectClosures, the
oracle family giving call k its per-reference match lists. -/
def runDetectClosures (p : RelocalizerParameters)
    (matches_seq : Nat → Nat → List HMatch) :
    List LocalMap → Nat → RelocalizerState → RelocalizerState
  | [], _, st => st
  | lm :: rest, k, st =>
      runDetectClosures p matches_seq rest (k + 1)
        (detectClosures p (matches_seq k) (some lm) st)

/-! ## Linear-algebra substrate for the UVD aligner (Eigen fixed-size
matrices over exact rationals, stored entrywise so that equality is
decidable). -/

/-- A 3-vector of machine reals, modelled as exact rationals. -/
structure Vec3 where
  x : ℚ
  y : ℚ
  z : ℚ
deriving DecidableEq

def Vec3.add (a b : Vec3) : Vec3 := ⟨a.x + b.x, a.y + b.y, a.z + b.z⟩

def Vec3.neg (a : Vec3) : Vec3 := ⟨-a.x, -a.y, -a.z⟩

def Vec3.smul (s : ℚ) (a : Vec3) : Vec3 := ⟨s * a.x, s * a.y, s * a.z⟩

/-- Euclidean inner product, used for the squared error chi. -/
def Vec3.dot (a b : Vec3) : ℚ := a.x * b.x + a.y * b.y + a.z * b.z

def Vec3.zero : Vec3 := ⟨0, 0, 0⟩

instance : Add Vec3 := ⟨Vec3.add⟩

instance : Neg Vec3 := ⟨Vec3.neg⟩

instance : SMul ℚ Vec3 := ⟨Vec3.smul⟩

/-- A 3×3 matrix of machine reals, stored entrywise. -/
structure Mat3 where
  m00 : ℚ
  m01 : ℚ
  m02 : ℚ
  m10 : ℚ
  m11 : ℚ
  m12 : ℚ
  m20 : ℚ
  m21 : ℚ
  m22 : ℚ
deriving DecidableEq

def Mat3.mul (A B : Mat3) : Mat3 :=
  ⟨A.m00 * B.m00 + A.m01 * B.m10 + A.m02 * B.m20,
   A.m00 * B.m01 + A.m01 * B.m11 + A.m02 * B.m21,
   A.m00 * B.m02 + A.m01 * B.m12 + A.m02 * B.m22,
   A.m10 * B.m00 + A.m11 * B.m10 + A.m12 * B.m20,
   A.m10 * B.m01 + A.m11 * B.m11 + A.m12 * B.m21,
   A.m10 * B.m02 + A.m11 * B.m12 + A.m12 * B.m22,
   A.m20 * B.m00 + A.m21 * B.m10 + A.m22 * B.m20,
   A.m20 * B.m01 + A.m21 * B.m11 + A.m22 * B.m21,
   A.m20 * B.m02 + A.m21 * B.m12 + A.m22 * B.m22⟩

def Mat3.add (A B : Mat3) : Mat3 :=
  ⟨A.m00 + B.m00, A.m01 + B.m01, A.m02 + B.m02,
   A.m10 + B.m10, A.m11 + B.m11, A.m12 + B.m12,
   A.m20 + B.m20, A.m21 + B.m21, A.m22 + B.m22⟩

def Mat3.sub (A B : Mat3) : Mat3 :=
  ⟨A.m00 - B.m00, A.m01 - B.m01, A.m02 - B.m02,
   A.m10 - B.m10, A.m11 - B.m11, A.m12 - B.m12,
   A.m20 - B.m20, A.m21 - B.m21, A.m22 - B.m22⟩

def Mat3.smul (s : ℚ) (A : Mat3) : Mat3 :=
  ⟨s * A.m00, s * A.m01, s * A.m02,
   s * A.m10, s * A.m11, s * A.m12,
   s * A.m20, s * A.m21, s * A.m22⟩

def Mat3.transpose (A : Mat3) : Mat3 :=
  ⟨A.m00, A.m10, A.m20, A.m01, A.m11, A.m21, A.m02, A.m12, A.m22⟩

def Mat3.mulVec (A : Mat3) (v : Vec3) : Vec3 :=
  ⟨A.m00 * v.x + A.m01 * v.y + A.m02 * v.z,
   A.m10 * v.x + A.m11 * v.y + A.m12 * v.z,
   A.m20 * v.x + A.m21 * v.y + A.m22 * v.z⟩

/-- Diagonal 3×3 matrix. -/
def Mat3.diag (a b c : ℚ) : Mat3 := ⟨a, 0, 0, 0, b, 0, 0, 0, c⟩

def Mat3.identity : Mat3 := ⟨1, 0, 0, 0, 1, 0, 0, 0, 1⟩

def Mat3.zero : Mat3 := ⟨0, 0, 0, 0, 0, 0, 0, 0, 0⟩

/-- The in-place `rotation_squared.diagonal().array() -= 1` step of
oneRound. -/
def Mat3.subDiagOne (A : Mat3) : Mat3 :=
  { A with m00 := A.m00 - 1, m11 := A.m11 - 1, m22 := A.m22 - 1 }

instance : Mul Mat3 := ⟨Mat3.mul⟩

instance : Add Mat3 := ⟨Mat3.add⟩

instance : SMul ℚ Mat3 := ⟨Mat3.smul⟩

/-- Modelled from the spec: the skew-symmetric cross-product matrix of a
3-vector (srrg_core geometry primitive `skew`, not under src/). -/
def skew (p : Vec3) : Mat3 :=
  ⟨0, -p.z, p.y,
   p.z, 0, -p.x,
   -p.y, p.x, 0⟩

/-- A 3×6 matrix split into its translation (columns 0–2) and rotation
(columns 3–5) blocks. -/
structure Mat3x6 where
  left : Mat3
  right : Mat3
deriving DecidableEq

/-- Premultiplication of a 3×6 matrix by a 3×3 matrix, blockwise. -/
def Mat3x6.premul (M : Mat3) (J : Mat3x6) : Mat3x6 := ⟨M * J.left, M * J.right⟩

/-- A 6×6 matrix split into four 3×3 blocks. -/
structure Mat6 where
  tl : Mat3
  tr : Mat3
  bl : Mat3
  br : Mat3
deriving DecidableEq

def Mat6.add (A B : Mat6) : Mat6 := ⟨A.tl + B.tl, A.tr + B.tr, A.bl + B.bl, A.br + B.br⟩

def Mat6.smul (s : ℚ) (A : Mat6) : Mat6 := ⟨s • A.tl, s • A.tr, s • A.bl, s • A.br⟩

def Mat6.identity : Mat6 := ⟨Mat3.identity, Mat3.zero, Mat3.zero, Mat3.identity⟩

def Mat6.zero : Mat6 := ⟨Mat3.zero, Mat3.zero, Mat3.zero, Mat3.zero⟩

instance : Add Mat6 := ⟨Mat6.add⟩

instance : SMul ℚ Mat6 := ⟨Mat6.smul⟩

/-- A 6-vector split into its two 3-vector halves. -/
structure Vec6 where
  upper : Vec3
  lower : Vec3
deriving DecidableEq

def Vec6.add (a b : Vec6) : Vec6 := ⟨a.upper + b.upper, a.lower + b.lower⟩

def Vec6.neg (a : Vec6) : Vec6 := ⟨Vec3.neg a.upper, Vec3.neg a.lower⟩

def Vec6.zero : Vec6 := ⟨Vec3.zero, Vec3.zero⟩

instance : Add Vec6 := ⟨Vec6.add⟩

instance : Neg Vec6 := ⟨Vec6.neg⟩

/-- Jᵀ·Ω·J for a 3×6 Jacobian J and 3×3 information matrix Ω, computed
blockwise. -/
def Mat3x6.quadForm (J : Mat3x6) (omega : Mat3) : Mat6 :=
  ⟨J.left.transpose * (omega * J.left), J.left.transpose * (omega * J.right),
   J.right.transpose * (omega * J.left), J.right.transpose * (omega * J.right)⟩

/-- Jᵀ·v for a 3×6 Jacobian J and 3-vector v, computed blockwise. -/
def Mat3x6.tmulVec (J : Mat3x6) (v : Vec3) : Vec6 :=
  ⟨J.left.transpose.mulVec v, J.right.transpose.mulVec v⟩

/-- A rigid-transform wrapper (Eigen Isometry3): linear part and
translation. -/
structure Iso3 where
  linear : Mat3
  translation : Vec3
deriving DecidableEq

/-- Affine application p ↦ R·p + t. -/
def Iso3.apply (T : Iso3) (p : Vec3) : Vec3 := T.linear.mulVec p + T.translation

/-- Composition of transforms. -/
def Iso3.comp (a b : Iso3) : Iso3 :=
  ⟨a.linear * b.linear, a.linear.mulVec b.translation + a.translation⟩

/-- Eigen Isometry inverse: (R, t)⁻¹ = (Rᵀ, −Rᵀ·t). -/
def Iso3.inverse (T : Iso3) : Iso3 :=
  ⟨T.linear.transpose, Vec3.neg (T.linear.transpose.mulVec T.translation)⟩

def Iso3.id : Iso3 := ⟨Mat3.identity, Vec3.zero⟩

/-! ## Data model read by the UVD aligner -/

/-- A landmark as the aligner reads it: world coordinates and the
coordinates-validated flag. -/
structure Landmark where
  coordinates : Vec3
  coordinates_validated : Bool
deriving DecidableEq

/-- A frame point as the aligner reads it: left-image coordinates,
left-camera coordinates, the previous point's world coordinates (the
aligner asserts the previous link present), and an optional landmark. -/
structure FramePoint where
  image_coordinates_left : Vec3
  camera_coordinates_left : Vec3
  previous_world_coordinates : Vec3
  landmark : Option Landmark
deriving DecidableEq

/-- The left camera as the aligner reads it: intrinsic matrix, image
bounds, and the robot/camera extrinsics. -/
structure Camera where
  camera_matrix : Mat3
  image_rows : ℚ
  image_cols : ℚ
  robot_to_camera : Iso3
  camera_to_robot : Iso3
deriving DecidableEq

/-- A frame as the aligner reads it: the active points and the left
camera. -/
structure Frame where
  active_points : List FramePoint
  camera_left : Camera
deriving DecidableEq

/-- The UVD aligner configuration. -/
structure UVDAlignerParameters where
  maximum_number_of_iterations : Nat
  error_delta_for_convergence : ℚ
  damping : ℚ
  maximum_error_kernel : ℚ
  maximum_depth_near_meters : ℚ
  maximum_depth_far_meters : ℚ
  weight_framepoint : ℚ

/-- The aligner's fixed context: frame, configuration, and the two
external numerical collaborators kept abstract — ldltSolve models Eigen's
`H.ldlt().solve(rhs)` (the symmetric-indefinite solve) and v2t models the
srrg_core exponential-map retraction; neither algorithm is repository
code, and every theorem below holds for any choice of the two. -/
structure UVDAlignerContext where
  frame : Frame
  parameters : UVDAlignerParameters
  ldltSolve : Mat6 → Vec6 → Vec6
  v2t : Vec6 → Iso3

/-- The aligner's mutable state. -/
structure UVDAlignerState where
  world_to_camera : Iso3
  camera_to_world : Iso3
  robot_to_world : Iso3
  world_to_robot : Iso3
  H : Mat6
  b : Vec6
  information_matrix : Mat6
  total_error : ℚ
  number_of_inliers : Nat
  number_of_outliers : Nat
  errors : List ℚ
  inliers : List Bool
  has_system_converged : Bool
deriving DecidableEq

/-- The per-point initialization of the information weight:
`_omega.setIdentity(); _omega(2,2) *= 10` (uvd_aligner.cpp lines 38–39). -/
def initialOmega : Mat3 := { Mat3.identity with m22 := Mat3.identity.m22 * 10 }

/-- The predicted camera-frame point: the validated landmark estimate when
available, else the previous frame point's world coordinates. -/
def predictedPointInCamera (world_to_camera : Iso3) (frame_point : FramePoint) : Vec3 :=
  match frame_point.landmark with
  | some l =>
    if l.coordinates_validated then world_to_camera.apply l.coordinates
    else world_to_camera.apply frame_point.previous_world_coordinates
  | none => world_to_camera.apply frame_point.previous_world_coordinates

/-- Whether the landmark estimate is used (otherwise the fallback weight
applies). -/
def usesLandmark (frame_point : FramePoint) : Bool :=
  match frame_point.landmark with
  | some l => l.coordinates_validated
  | none => false

/-- The homogeneous projection camera_matrix · predicted point
(uvd_aligner.cpp line 63). -/
def predictedUVD (ctx : UVDAlignerContext) (wtc : Iso3) (fp : FramePoint) : Vec3 :=
  ctx.frame.camera_left.camera_matrix.mulVec (predictedPointInCamera wtc fp)

/-- The predicted image coordinates: perspective division by the depth,
with the depth restored in the third component (lines 66–68). -/
def predictedPointInImage (ctx : UVDAlignerContext) (wtc : Iso3) (fp : FramePoint) : Vec3 :=
  ⟨(predictedUVD ctx wtc fp).x / (predictedPointInCamera wtc fp).z,
   (predictedUVD ctx wtc fp).y / (predictedPointInCamera wtc fp).z,
   (predictedPointInCamera wtc fp).z⟩

/-- The image-bounds rejection test (lines 71–74). -/
def outOfImage (ctx : UVDAlignerContext) (wtc : Iso3) (fp : FramePoint) : Prop :=
  (predictedPointInImage ctx wtc fp).x < 0 ∨
  ctx.frame.camera_left.image_cols < (predictedPointInImage ctx wtc fp).x ∨
  (predictedPointInImage ctx wtc fp).y < 0 ∨
  ctx.frame.camera_left.image_rows < (predictedPointInImage ctx wtc fp).y

instance (ctx : UVDAlignerContext) (wtc : Iso3) (fp : FramePoint) :
    Decidable (outOfImage ctx wtc fp) := by
  unfold outOfImage
  exact inferInstance

/-- The 3-component residual (pixel x, pixel y, depth) against the
observed coordinates (lines 86–88). -/
def pointError (ctx : UVDAlignerContext) (wtc : Iso3) (fp : FramePoint) : Vec3 :=
  ⟨(predictedPointInImage ctx wtc fp).x - fp.image_coordinates_left.x,
   (predictedPointInImage ctx wtc fp).y - fp.image_coordinates_left.y,
   (predictedPointInImage ctx wtc fp).z - fp.camera_coordinates_left.z⟩

/-- The squared residual chi = errorᵀ·error (line 91). -/
def pointChi (ctx : UVDAlignerContext) (wtc : Iso3) (fp : FramePoint) : ℚ :=
  (pointError ctx wtc fp).dot (pointError ctx wtc fp)

/-- The observable outcome of processing one frame point inside
linearize: the stored error and classification, whether the point passed
the depth and image-bounds checks, the assembled transform Jacobian, the
successive values of the single mutable _omega (base: after the fallback
weight; robust: after the error kernel; effective: after the depth
attenuation), and the point's contribution to H, b and the total error. -/
structure PointResult where
  err : ℚ
  is_inlier : Bool
  is_outlier : Bool
  processed : Bool
  jacobian_transform : Mat3x6
  omega_base : Mat3
  omega_robust : Mat3
  omega_effective : Mat3
  dH : Mat6
  db : Vec6
  dtotal : ℚ
deriving DecidableEq

/-- Outcome of a point that contributes nothing (failed depth or bounds
check, or ignored outlier, with the relevant fields overridden). -/
def skippedPointResult : PointResult :=
  ⟨-1, false, false, false, ⟨Mat3.zero, Mat3.zero⟩, Mat3.zero, Mat3.zero, Mat3.zero,
   Mat6.zero, Vec6.zero, 0⟩

/-- The Jacobian/weight assembly shared by the inlier and included-outlier
paths (uvd_aligner.cpp lines 113–146). -/
def assembleContribution (ctx : UVDAlignerContext)
    (predicted_point_in_camera predicted_uvd_in_camera : Vec3)
    (omega_base omega_robust : Mat3) (error : Vec3) (chi : ℚ)
    (inlier : Bool) : PointResult :=
  let pr := ctx.parameters
  let depth_meters := predicted_point_in_camera.z
  let inverse_predicted_d := 1 / depth_meters
  let inverse_predicted_d_squared := inverse_predicted_d * inverse_predicted_d
  let jacobian_transform : Mat3x6 :=
    ⟨if depth_meters < pr.maximum_depth_near_meters then Mat3.identity else Mat3.zero,
     (-2 : ℚ) • skew predicted_point_in_camera⟩
  let jacobian_projection : Mat3 :=
    ⟨inverse_predicted_d, 0, -predicted_uvd_in_camera.x * inverse_predicted_d_squared,
     0, inverse_predicted_d, -predicted_uvd_in_camera.y * inverse_predicted_d_squared,
     0, 0, 1⟩
  let jacobian :=
    Mat3x6.premul (jacobian_projection * ctx.frame.camera_left.camera_matrix)
      jacobian_transform
  let omega_effective :=
    if depth_meters < pr.maximum_depth_near_meters then
      ((pr.maximum_depth_near_meters - depth_meters) / pr.maximum_depth_near_meters) •
        omega_robust
    else
      ((pr.maximum_depth_far_meters - depth_meters) / pr.maximum_depth_far_meters) •
        omega_robust
  ⟨chi, inlier, !inlier, true, jacobian_transform, omega_base, omega_robust, omega_effective,
   Mat3x6.quadForm jacobian omega_effective,
   Mat3x6.tmulVec jacobian (omega_effective.mulVec error), chi⟩

/-- The body of the point loop of UVDAligner::linearize for one frame
point (uvd_aligner.cpp lines 35–147). -/
def processPoint (ctx : UVDAlignerContext) (ignore_outliers : Bool)
    (world_to_camera : Iso3) (frame_point : FramePoint) : PointResult :=
  let pr := ctx.parameters
  let predicted := predictedPointInCamera world_to_camera frame_point
  let omega_base :=
    if usesLandmark frame_point then initialOmega
    else pr.weight_framepoint • initialOmega
  if predicted.z ≤ 0 ∨ pr.maximum_depth_far_meters < predicted.z then skippedPointResult
  else if outOfImage ctx world_to_camera frame_point then skippedPointResult
  else
    let error := pointError ctx world_to_camera frame_point
    let chi := pointChi ctx world_to_camera frame_point
    if pr.maximum_error_kernel < chi then
      if ignore_outliers then
        { skippedPointResult with err := chi, processed := true, is_outlier := true }
      else
        assembleContribution ctx predicted
          (predictedUVD ctx world_to_camera frame_point) omega_base
          ((pr.maximum_error_kernel / chi) • omega_base) error chi false
    else
      assembleContribution ctx predicted
        (predictedUVD ctx world_to_camera frame_point) omega_base
        omega_base error chi true

/-- The per-point outcomes of one linearize pass. -/
def pointResults (ctx : UVDAlignerContext) (ignore_outliers : Bool)
    (world_to_camera : Iso3) : List PointResult :=
  ctx.frame.active_points.map (processPoint ctx ignore_outliers world_to_camera)

/-- UVDAligner::linearize — resets H, b, the counters and totals, then
accumulates every point's contribution. -/
def linearize (ctx : UVDAlignerContext) (ignore_outliers : Bool)
    (st : UVDAlignerState) : UVDAlignerState :=
  let rs := pointResults ctx ignore_outliers st.world_to_camera
  { st with
    H := rs.foldl (fun a r => a + r.dH) Mat6.zero,
    b := rs.foldl (fun a r => a + r.db) Vec6.zero,
    total_error := rs.foldl (fun a r => a + r.dtotal) 0,
    number_of_inliers := rs.countP (fun r => r.is_inlier),
    number_of_outliers := rs.countP (fun r => r.is_outlier),
    errors := rs.map (fun r => r.err),
    inliers := rs.map (fun r => r.is_inlier) }

/-- UVDAligner::oneRound — linearize, damp H, solve H·dx = −b through the
external solver, retract through the external v2t, and re-orthonormalize
the rotation block with the first-order Gram-Schmidt correction. -/
def oneRound (ctx : UVDAlignerContext) (ignore_outliers : Bool)
    (st : UVDAlignerState) : UVDAlignerState :=
  let st1 := linearize ctx ignore_outliers st
  let H2 := st1.H + ctx.parameters.damping • Mat6.identity
  let dx := ctx.ldltSolve H2 (-st1.b)
  let wtc := (ctx.v2t dx).comp st1.world_to_camera
  let rotation := wtc.linear
  let rotation_squared := Mat3.subDiagOne (rotation.transpose * rotation)
  let lin2 := rotation.sub ((1/2 : ℚ) • (rotation * rotation_squared))
  { st1 with H := H2, world_to_camera := ⟨lin2, wtc.translation⟩ }

/-- The convergence epilogue: three inlier-only rounds, record H as the
information matrix, set the converged flag (uvd_aligner.cpp lines
183–192). -/
def finishConverge (ctx : UVDAlignerContext) (st1 : UVDAlignerState) : UVDAlignerState :=
  let st2 := oneRound ctx true (oneRound ctx true (oneRound ctx true st1))
  { st2 with information_matrix := st2.H, has_system_converged := true }

/-- The iteration loop of UVDAligner::converge, indexed by the remaining
iteration budget and carrying the previous total error. -/
def convergeLoop (ctx : UVDAlignerContext) :
    Nat → ℚ → UVDAlignerState → UVDAlignerState
  | 0, _, st => st
  | Nat.succ k, total_error_previous, st =>
    let st1 := oneRound ctx false st
    if |total_error_previous - st1.total_error| <
        ctx.parameters.error_delta_for_convergence then
      finishConverge ctx st1
    else if k = 0 then { st1 with has_system_converged := false }
    else convergeLoop ctx k st1.total_error st1

/-- The wrapped-transform update at the end of converge (uvd_aligner.cpp
lines 207–210). -/
def updateWrappedTransforms (ctx : UVDAlignerContext)
    (st : UVDAlignerState) : UVDAlignerState :=
  let ctw := st.world_to_camera.inverse
  let rtw := ctw.comp ctx.frame.camera_left.robot_to_camera
  { st with camera_to_world := ctw, robot_to_world := rtw, world_to_robot := rtw.inverse }

/-- UVDAligner::converge. -/
def converge (ctx : UVDAlignerContext) (st : UVDAlignerState) : UVDAlignerState :=
  updateWrappedTransforms ctx
    (convergeLoop ctx ctx.parameters.maximum_number_of_iterations 0 st)

/-- k repetitions of oneRound with outliers included. -/
def oneRoundIter (ctx : UVDAlignerContext) : Nat → UVDAlignerState → UVDAlignerState
  | 0, st => st
  | Nat.succ k, st => oneRoundIter ctx k (oneRound ctx false st)

/-- The total error after k rounds. -/
def iterError (ctx : UVDAlignerContext) (st : UVDAlignerState) (k : Nat) : ℚ :=
  (oneRoundIter ctx k st).total_error

/-- Spec-side description of the convergence test evaluated at iteration
i of converge when started with stored previous error prev: the absolute
change of the total error falls strictly below the convergence delta. -/
def convergenceTestFrom (ctx : UVDAlignerContext) (prev : ℚ)
    (st : UVDAlignerState) (i : Nat) : Prop :=
  |(if i = 0 then prev else iterError ctx st i) - iterError ctx st (i + 1)| <
    ctx.parameters.error_delta_for_convergence

/-- The convergence test of a converge call (initial previous error 0). -/
def convergenceTest (ctx : UVDAlignerContext) (st : UVDAlignerState) (i : Nat) : Prop :=
  convergenceTestFrom ctx 0 st i

/-- Spec-side description of vote counting (4.2.1): the number of
occurrences of a reference identifier among the candidates whose reference
is not in the used-reference mask. -/
def voteCount (mask : List Nat) (matches_ : List Candidate) (id : Nat) : Nat :=
  matches_.countP (fun c => decide (c.reference = id ∧ c.reference ∉ mask))

/-- Spec-side description of the winning vote count: the highest
unmasked-occurrence count over the reference identifiers appearing in the
candidate list. -/
def maxVoteCount (mask : List Nat) (matches_ : List Candidate) : Nat :=
  (matches_.map (fun c => voteCount mask matches_ c.reference)).foldr max 0

/-- Spec-side description of what one reference index contributes to the
closure buffer: one closure when the matching ratio reaches the minimum
ratio and the grouped candidate map reaches the minimum matched-landmark
count, nothing otherwise. -/
def emittedClosures (p : RelocalizerParameters) (matches_for : Nat → List HMatch)
    (local_map_query : LocalMap) (added : List LocalMap) (i : Nat) : List Closure :=
  if p.preliminary_minimum_matching_ratio ≤
        ((matches_for i).length : ℚ) / (local_map_query.number_of_appearances : ℚ) ∧
      p.minimum_number_of_matched_landmarks ≤
        (groupMatchesByLandmark (matches_for i)).length then
    [⟨local_map_query.identifier,
      (added.getD i ⟨0, 0⟩).identifier,
      (groupMatchesByLandmark (matches_for i)).length,
      ((matches_for i).length : ℚ) / (local_map_query.number_of_appearances : ℚ),
      (resolveCorrespondences p.minimum_matches_per_correspondence
        (groupMatchesByLandmark (matches_for i)) []).1⟩]
  else []

/-! ## Theorems about the relocalization engine -/

/-- Unfolding of voteCount over a cons cell. -/
theorem voteCount_cons (mask : List Nat) (c : Candidate) (rest : List Candidate) (id : Nat) :
    voteCount mask (c :: rest) id =
      voteCount mask rest id +
        if c.reference = id ∧ c.reference ∉ mask then 1 else 0 := by
  simp only [voteCount, List.countP_cons]
  by_cases h : c.reference = id ∧ c.reference ∉ mask
  · simp [h]
  · simp [h]

/-- Fold-max is an upper bound reached on the list. -/
theorem foldr_max_le_of_forall {L : List Nat} {n : Nat} (h : ∀ x ∈ L, x ≤ n) :
    L.foldr max 0 ≤ n := by
  induction L with
  | nil => simp
  | cons a t ih =>
    simp only [List.foldr_cons]
    exact max_le (h a (List.mem_cons_self a t)) (ih fun x hx => h x (List.mem_cons_of_mem a hx))

/-- Every member of a list is at most its fold-max. -/
theorem le_foldr_max_of_mem {L : List Nat} {x : Nat} (h : x ∈ L) :
    x ≤ L.foldr max 0 := by
  induction L with
  | nil => simp at h
  | cons a t ih =>
    rcases List.mem_cons.mp h with h1 | h1
    · subst h1; simp only [List.foldr_cons]; exact le_max_left x (t.foldr max 0)
    · exact le_trans (ih h1) (le_max_right a (t.foldr max 0))

/-- The best count maintained by the voting loop bounds, for every
reference identifier, the inserted occurrences plus the unmasked
occurrences still to come. -/
theorem voteLoop_count_le (mask : List Nat) :
    ∀ (l : List Candidate) (counts : List Nat) (mb : Option Candidate) (cb : Nat),
      (∀ id, counts.count id ≤ cb) →
      ∀ id, counts.count id + voteCount mask l id ≤ (voteLoop mask l counts mb cb).2 := by
  intro l
  induction l with
  | nil =>
    intro counts mb cb hI id
    simpa [voteLoop, voteCount] using hI id
  | cons c rest ih =>
    intro counts mb cb hI id
    rw [voteCount_cons]
    by_cases hm : c.reference ∈ mask
    · have hv : voteLoop mask (c :: rest) counts mb cb = voteLoop mask rest counts mb cb := by
        simp [voteLoop, hm]
      have hif : (if c.reference = id ∧ c.reference ∉ mask then 1 else 0) = 0 := by
        simp [hm]
      rw [hv, hif]
      simpa using ih counts mb cb hI id
    · have hv : voteLoop mask (c :: rest) counts mb cb =
          if cb < (c.reference :: counts).count c.reference then
            voteLoop mask rest (c.reference :: counts) (some c)
              ((c.reference :: counts).count c.reference)
          else voteLoop mask rest (c.reference :: counts) mb cb := by
        simp [voteLoop, hm]
      have hcount : ∀ j : Nat, counts.count j +
          (if c.reference = j ∧ c.reference ∉ mask then 1 else 0) =
          (c.reference :: counts).count j := by
        intro j
        by_cases hj : c.reference = j
        · subst hj
          simp [hm, List.count_cons_self]
        · have : j ≠ c.reference := fun hh => hj hh.symm
          simp [List.count_cons_of_ne this, hj]
      rw [hv]
      by_cases hlt : cb < (c.reference :: counts).count c.reference
      · rw [if_pos hlt]
        have hI2 : ∀ j, (c.reference :: counts).count j ≤
            (c.reference :: counts).count c.reference := by
          intro j
          by_cases hj : j = c.reference
          · subst hj; exact le_refl _
          · rw [List.count_cons_of_ne hj]
            exact le_trans (hI j) (Nat.le_of_lt hlt)
        have := ih (c.reference :: counts) (some c)
          ((c.reference :: counts).count c.reference) hI2 id
        calc counts.count id + (voteCount mask rest id +
              if c.reference = id ∧ c.reference ∉ mask then 1 else 0)
            = (c.reference :: counts).count id + voteCount mask rest id := by
              rw [← hcount id]; ring
          _ ≤ _ := this
      · rw [if_neg hlt]
        have hle : (c.reference :: counts).count c.reference ≤ cb := Nat.le_of_not_lt hlt
        have hI2 : ∀ j, (c.reference :: counts).count j ≤ cb := by
          intro j
          by_cases hj : j = c.reference
          · subst hj; exact hle
          · rw [List.count_cons_of_ne hj]; exact hI j
        have := ih (c.reference :: counts) mb cb hI2 id
        calc counts.count id + (voteCount mask rest id +
              if c.reference = id ∧ c.reference ∉ mask then 1 else 0)
            = (c.reference :: counts).count id + voteCount mask rest id := by
              rw [← hcount id]; ring
          _ ≤ _ := this

/-- If the voting loop ends with no best candidate, it started with none
and the best count is unchanged. -/
theorem voteLoop_none (mask : List Nat) :
    ∀ (l : List Candidate) (counts : List Nat) (mb : Option Candidate) (cb : Nat),
      (voteLoop mask l counts mb cb).1 = none →
      mb = none ∧ (voteLoop mask l counts mb cb).2 = cb := by
  intro l
  induction l with
  | nil =>
    intro counts mb cb h
    exact ⟨h, rfl⟩
  | cons c rest ih =>
    intro counts mb cb h
    by_cases hm : c.reference ∈ mask
    · have hv : voteLoop mask (c :: rest) counts mb cb = voteLoop mask rest counts mb cb := by
        simp [voteLoop, hm]
      rw [hv] at h ⊢
      exact ih counts mb cb h
    · have hv : voteLoop mask (c :: rest) counts mb cb =
          if cb < (c.reference :: counts).count c.reference then
            voteLoop mask rest (c.reference :: counts) (some c)
              ((c.reference :: counts).count c.reference)
          else voteLoop mask rest (c.reference :: counts) mb cb := by
        simp [voteLoop, hm]
      rw [hv] at h ⊢
      by_cases hlt : cb < (c.reference :: counts).count c.reference
      · rw [if_pos hlt] at h ⊢
        have := (ih _ _ _ h).1
        exact absurd this (by simp)
      · rw [if_neg hlt] at h ⊢
        exact ih _ _ _ h

/-- If the voting loop ends with a best candidate, that candidate is
unmasked, came from the initial best or the list, and its final occurrence
count equals the final best count. -/
theorem voteLoop_some (mask : List Nat) :
    ∀ (l : List Candidate) (counts : List Nat) (mb : Option Candidate) (cb : Nat),
      (∀ m0, mb = some m0 → m0.reference ∉ mask ∧ counts.count m0.reference = cb) →
      ∀ m, (voteLoop mask l counts mb cb).1 = some m →
        m.reference ∉ mask ∧
        counts.count m.reference + voteCount mask l m.reference =
          (voteLoop mask l counts mb cb).2 ∧
        (mb = some m ∨ m ∈ l) := by
  intro l
  induction l with
  | nil =>
    intro counts mb cb hI m h
    obtain ⟨h1, h2⟩ := hI m h
    exact ⟨h1, by simpa [voteLoop, voteCount] using h2, Or.inl h⟩
  | cons c rest ih =>
    intro counts mb cb hI m h
    by_cases hm : c.reference ∈ mask
    · have hv : voteLoop mask (c :: rest) counts mb cb = voteLoop mask rest counts mb cb := by
        simp [voteLoop, hm]
      rw [hv] at h ⊢
      obtain ⟨h1, h2, h3⟩ := ih counts mb cb hI m h
      refine ⟨h1, ?_, ?_⟩
      · rw [voteCount_cons]
        have hif : (if c.reference = m.reference ∧ c.reference ∉ mask then 1 else 0) = 0 := by
          simp [hm]
        rw [hif]
        simpa using h2
      · rcases h3 with h3 | h3
        · exact Or.inl h3
        · exact Or.inr (List.mem_cons_of_mem c h3)
    · have hv : voteLoop mask (c :: rest) counts mb cb =
          if cb < (c.reference :: counts).count c.reference then
            voteLoop mask rest (c.reference :: counts) (some c)
              ((c.reference :: counts).count c.reference)
          else voteLoop mask rest (c.reference :: counts) mb cb := by
        simp [voteLoop, hm]
      have hcount : ∀ j : Nat, counts.count j +
          (if c.reference = j ∧ c.reference ∉ mask then 1 else 0) =
          (c.reference :: counts).count j := by
        intro j
        by_cases hj : c.reference = j
        · subst hj
          simp [hm, List.count_cons_self]
        · have : j ≠ c.reference := fun hh => hj hh.symm
          simp [List.count_cons_of_ne this, hj]
      rw [hv] at h ⊢
      by_cases hlt : cb < (c.reference :: counts).count c.reference
      · rw [if_pos hlt] at h ⊢
        have hI2 : ∀ m0, (some c : Option Candidate) = some m0 →
            m0.reference ∉ mask ∧
            (c.reference :: counts).count m0.reference =
              (c.reference :: counts).count c.reference := by
          intro m0 hm0
          obtain rfl : c = m0 := by injection hm0
          exact ⟨hm, rfl⟩
        obtain ⟨h1, h2, h3⟩ := ih (c.reference :: counts) (some c)
          ((c.reference :: counts).count c.reference) hI2 m h
        refine ⟨h1, ?_, ?_⟩
        · rw [voteCount_cons, ← h2, ← hcount m.reference]
          ring
        · rcases h3 with h3 | h3
          · obtain rfl : c = m := by injection h3
            exact Or.inr (List.mem_cons_self c rest)
          · exact Or.inr (List.mem_cons_of_mem c h3)
      · rw [if_neg hlt] at h ⊢
        have hI2 : ∀ m0, mb = some m0 →
            m0.reference ∉ mask ∧ (c.reference :: counts).count m0.reference = cb := by
          intro m0 hm0
          obtain ⟨h1, h2⟩ := hI m0 hm0
          refine ⟨h1, ?_⟩
          by_cases hj : m0.reference = c.reference
          · exfalso
            rw [hj] at h2
            have : (c.reference :: counts).count c.reference = counts.count c.reference + 1 :=
              List.count_cons_self c.reference counts
            omega
          · rw [List.count_cons_of_ne hj]
            exact h2
        obtain ⟨h1, h2, h3⟩ := ih (c.reference :: counts) mb cb hI2 m h
        refine ⟨h1, ?_, ?_⟩
        · rw [voteCount_cons, ← h2, ← hcount m.reference]
          ring
        · rcases h3 with h3 | h3
          · exact Or.inl h3
          · exact Or.inr (List.mem_cons_of_mem c h3)

/-- C2: correspondence resolution.  For a non-empty candidate list sharing
one query landmark, _getCorrespondenceNN returns nothing when the highest
unmasked vote count does not strictly exceed the minimum-votes threshold
(in particular when every candidate reference is masked), and otherwise
returns a correspondence whose vote count is that highest count, whose
confidence is that count divided by the full candidate-list size, whose
reference was unmasked and is marked used in the returned mask, and whose
query/reference pair comes from a candidate of the list. -/
theorem getCorrespondenceNN_resolution_spec (minimum_matches : Nat) (mask : List Nat)
    (matches_ : List Candidate) (h : matches_ ≠ []) :
    (getCorrespondenceNN minimum_matches mask matches_ = none →
        maxVoteCount mask matches_ ≤ minimum_matches) ∧
    (∀ c mask2, getCorrespondenceNN minimum_matches mask matches_ = some (c, mask2) →
        minimum_matches < c.matching_count ∧
        c.matching_count = maxVoteCount mask matches_ ∧
        voteCount mask matches_ c.reference = c.matching_count ∧
        c.confidence = (c.matching_count : ℚ) / (matches_.length : ℚ) ∧
        c.reference ∉ mask ∧
        mask2 = c.reference :: mask ∧
        ∃ cand, cand ∈ matches_ ∧ c.query = cand.query ∧ c.reference = cand.reference) := by
  have hI0 : ∀ id, ([] : List Nat).count id ≤ 0 := by simp
  have hle : ∀ id, voteCount mask matches_ id ≤ (voteLoop mask matches_ [] none 0).2 := by
    intro id
    simpa using voteLoop_count_le mask matches_ [] none 0 hI0 id
  have hmaxle : maxVoteCount mask matches_ ≤ (voteLoop mask matches_ [] none 0).2 := by
    apply foldr_max_le_of_forall
    intro x hx
    rcases List.mem_map.mp hx with ⟨c0, _, rfl⟩
    exact hle c0.reference
  rcases hres : voteLoop mask matches_ [] none 0 with ⟨mb, cb⟩
  rw [hres] at hmaxle
  cases mb with
  | none =>
    have hcb : cb = 0 := by
      have := voteLoop_none mask matches_ [] none 0 (by rw [hres])
      rw [hres] at this
      exact this.2
    constructor
    · intro _
      omega
    · intro c mask2 hc
      exfalso
      rw [getCorrespondenceNN, hres] at hc
      simp at hc
  | some m =>
    have hsome := voteLoop_some mask matches_ [] none 0
      (by intro m0 hm0; exact absurd hm0 (by simp)) m (by rw [hres])
    rw [hres] at hsome
    obtain ⟨hmask, hcount, hmem⟩ := hsome
    have hmem2 : m ∈ matches_ := by
      rcases hmem with hmem | hmem
      · exact absurd hmem (by simp)
      · exact hmem
    have hvc : voteCount mask matches_ m.reference = cb := by simpa using hcount
    have hcbmax : cb = maxVoteCount mask matches_ := by
      have h1 : voteCount mask matches_ m.reference ≤ maxVoteCount mask matches_ :=
        le_foldr_max_of_mem (List.mem_map_of_mem _ hmem2)
      omega
    by_cases hth : minimum_matches < cb
    · have hval : getCorrespondenceNN minimum_matches mask matches_ =
          some (⟨m.query, m.reference, cb, (cb : ℚ) / (matches_.length : ℚ)⟩,
                m.reference :: mask) := by
        rw [getCorrespondenceNN, hres]
        simp [hth]
      constructor
      · intro hc
        rw [hval] at hc
        exact absurd hc (by simp)
      · intro c mask2 hc
        rw [hval] at hc
        obtain ⟨hc1, hc2⟩ : (⟨m.query, m.reference, cb, (cb : ℚ) / (matches_.length : ℚ)⟩ :
            Correspondence) = c ∧ m.reference :: mask = mask2 := by
          constructor <;> [exact congrArg Prod.fst (Option.some.inj hc);
            exact congrArg Prod.snd (Option.some.inj hc)]
        subst hc1
        subst hc2
        refine ⟨hth, hcbmax, hvc, rfl, hmask, rfl, m, hmem2, rfl, rfl⟩
    · have hval : getCorrespondenceNN minimum_matches mask matches_ = none := by
        rw [getCorrespondenceNN, hres]
        simp [hth]
      constructor
      · intro _
        omega
      · intro c mask2 hc
        rw [hval] at hc
        exact absurd hc (by simp)

/-- Witness for the resolution theorem at the exact example of the claim:
candidates [(L1,R1,d),(L1,R1,d2),(L1,R2,d3)], vote threshold 1, empty
mask resolve to (L1,R1) with votes 2 and confidence 2/3. -/
theorem getCorrespondenceNN_resolution_spec_witness :
    (([⟨1, 10, 5⟩, ⟨1, 10, 7⟩, ⟨1, 20, 9⟩] : List Candidate) ≠ []) ∧
    getCorrespondenceNN 1 [] [⟨1, 10, 5⟩, ⟨1, 10, 7⟩, ⟨1, 20, 9⟩] =
      some (⟨1, 10, 2, 2/3⟩, [10]) ∧
    (1 < 2 ∧
     2 = maxVoteCount [] [⟨1, 10, 5⟩, ⟨1, 10, 7⟩, ⟨1, 20, 9⟩] ∧
     voteCount [] [⟨1, 10, 5⟩, ⟨1, 10, 7⟩, ⟨1, 20, 9⟩] 10 = 2 ∧
     (2 / 3 : ℚ) = ((2 : Nat) : ℚ) /
        ((([⟨1, 10, 5⟩, ⟨1, 10, 7⟩, ⟨1, 20, 9⟩] : List Candidate).length : Nat) : ℚ) ∧
     (10 : Nat) ∉ ([] : List Nat) ∧
     ([10] : List Nat) = 10 :: [] ∧
     ∃ cand, cand ∈ ([⟨1, 10, 5⟩, ⟨1, 10, 7⟩, ⟨1, 20, 9⟩] : List Candidate) ∧
        1 = cand.query ∧ 10 = cand.reference) :=
  ⟨by simp,
   by norm_num [getCorrespondenceNN, voteLoop],
   (getCorrespondenceNN_resolution_spec 1 [] [⟨1, 10, 5⟩, ⟨1, 10, 7⟩, ⟨1, 20, 9⟩]
      (by simp)).2 ⟨1, 10, 2, 2/3⟩ [10] (by norm_num [getCorrespondenceNN, voteLoop])⟩

/-- Warm-up run: while the database holds fewer local maps than the
minimum interspace, a detection call only records the local map and adds
its appearances to the database. -/
theorem runDetect_warmup (p : RelocalizerParameters) (orc : Nat → Nat → List HMatch) :
    ∀ (maps : List LocalMap) (k : Nat) (st : RelocalizerState),
      st.place_database_size + maps.length ≤ p.preliminary_minimum_interspace_queries →
      runDetectClosures p orc maps k st =
        { st with added_local_maps := st.added_local_maps ++ maps,
                  place_database_size := st.place_database_size + maps.length } := by
  intro maps
  induction maps with
  | nil =>
    intro k st h
    cases st
    simp [runDetectClosures]
  | cons lm rest ih =>
    intro k st h
    obtain ⟨added, n, cls, msk, g⟩ := st
    have hlt : n < p.preliminary_minimum_interspace_queries := by
      simp only [List.length_cons] at h
      omega
    have hd : detectClosures p (orc k) (some lm) ⟨added, n, cls, msk, g⟩ =
        ⟨added ++ [lm], n + 1, cls, msk, g⟩ := by
      simp [detectClosures, hlt]
    have hrec := ih (k + 1) ⟨added ++ [lm], n + 1, cls, msk, g⟩
      (by simp only [List.length_cons] at h; simpa using by omega)
    calc runDetectClosures p orc (lm :: rest) k ⟨added, n, cls, msk, g⟩
        = runDetectClosures p orc rest (k + 1)
            (detectClosures p (orc k) (some lm) ⟨added, n, cls, msk, g⟩) := rfl
      _ = ⟨(added ++ [lm]) ++ rest, (n + 1) + rest.length, cls, msk, g⟩ := by
            rw [hd, hrec]
      _ = ⟨added ++ (lm :: rest), n + (lm :: rest).length, cls, msk, g⟩ := by
            simp only [List.append_assoc, List.singleton_append, List.length_cons]
            exact congrArg (RelocalizerState.mk (added ++ (lm :: rest)) · cls msk g) (by omega)

/-- C3: warm-up invariant.  Feeding N local maps to detectClosures from a
fresh relocalizer with N at most the configured minimum interspace leaves
the pending-closure list empty (and the mask empty, nothing but adds
happened), whatever matches the place database might report: each map is
only recorded and added, no query is evaluated. -/
theorem warmup_no_closures (p : RelocalizerParameters) (orc : Nat → Nat → List HMatch)
    (maps : List LocalMap)
    (h : maps.length ≤ p.preliminary_minimum_interspace_queries) :
    runDetectClosures p orc maps 0 initialRelocalizerState =
      ⟨maps, maps.length, [], [], 0⟩ := by
  have h2 : initialRelocalizerState.place_database_size + maps.length ≤
      p.preliminary_minimum_interspace_queries := by
    simpa [initialRelocalizerState] using h
  simpa [initialRelocalizerState] using runDetect_warmup p orc maps 0 initialRelocalizerState h2

/-- Witness for the warm-up invariant: interspace 2, two local maps added,
an oracle claiming perfect matches everywhere, still no closure. -/
theorem warmup_no_closures_witness :
    ([(⟨0, 3⟩ : LocalMap), ⟨1, 4⟩].length ≤
        (RelocalizerParameters.mk 2 (1/2) 1 0 50).preliminary_minimum_interspace_queries) ∧
    runDetectClosures ⟨2, 1/2, 1, 0, 50⟩ (fun _ _ => [⟨5, 6, 1⟩]) [⟨0, 3⟩, ⟨1, 4⟩] 0
        initialRelocalizerState = ⟨[⟨0, 3⟩, ⟨1, 4⟩], 2, [], [], 0⟩ :=
  ⟨by decide, warmup_no_closures ⟨2, 1/2, 1, 0, 50⟩ (fun _ _ => [⟨5, 6, 1⟩]) [⟨0, 3⟩, ⟨1, 4⟩]
    (by decide)⟩

/-- C10: a null local-map pointer makes detectClosures return immediately,
leaving every piece of relocalizer state untouched. -/
theorem detectClosures_null_noop (p : RelocalizerParameters)
    (matches_for : Nat → List HMatch) (st : RelocalizerState) :
    detectClosures p matches_for none st = st := rfl

/-- C8: detectClosures executes getchar() — a blocking wait on standard
input — once per emitted closure (relocalizer.cpp line 119).  On a concrete
cycle that emits two closures the ghost counter records two getchar calls,
so the operation does not run to completion without suspending on external
input. -/
theorem detectClosures_calls_getchar :
    (detectClosures ⟨1, 1/2, 1, 0, 50⟩
        (fun i => if i < 2 then [⟨1, 10, 3⟩] else [])
        (some ⟨2, 1⟩)
        ⟨[⟨0, 1⟩, ⟨1, 1⟩], 2, [], [], 0⟩).getchar_calls = 2 := by
  norm_num [detectClosures, processReference, groupMatchesByLandmark, insertCandidate,
    resolveCorrespondences, getCorrespondenceNN, voteLoop, List.range_succ]

/-- A successful resolution returns an unmasked reference, pushes it onto
the mask, and takes its query from one of the candidates. -/
theorem getCorrespondenceNN_some_facts (minv : Nat) (mask : List Nat)
    (cands : List Candidate) (c : Correspondence) (mask2 : List Nat)
    (h : getCorrespondenceNN minv mask cands = some (c, mask2)) :
    c.reference ∉ mask ∧ mask2 = c.reference :: mask ∧
      ∃ cand, cand ∈ cands ∧ c.query = cand.query := by
  rw [getCorrespondenceNN] at h
  rcases hres : voteLoop mask cands [] none 0 with ⟨mb, cb⟩
  rw [hres] at h
  cases mb with
  | none => simp at h
  | some m =>
    dsimp only at h
    by_cases hth : minv < cb
    · rw [if_pos hth] at h
      have hsome := voteLoop_some mask cands [] none 0
        (by intro m0 hm0; exact absurd hm0 (by simp)) m (by rw [hres])
      obtain ⟨hmask, _, hmem⟩ := hsome
      have hmem2 : m ∈ cands := by
        rcases hmem with hmem | hmem
        · exact absurd hmem (by simp)
        · exact hmem
      obtain ⟨hc1, hc2⟩ : (⟨m.query, m.reference, cb, (cb : ℚ) / (cands.length : ℚ)⟩ :
          Correspondence) = c ∧ m.reference :: mask = mask2 := by
        constructor <;> [exact congrArg Prod.fst (Option.some.inj h);
          exact congrArg Prod.snd (Option.some.inj h)]
      subst hc1
      subst hc2
      exact ⟨hmask, rfl, m, hmem2, rfl⟩
    · rw [if_neg hth] at h
      simp at h

/-- The resolution loop never removes identifiers from the mask. -/
theorem resolveCorrespondences_mask_mem (minv : Nat) :
    ∀ (entries : List (Nat × List Candidate)) (mask : List Nat) (x : Nat),
      x ∈ mask → x ∈ (resolveCorrespondences minv entries mask).2 := by
  intro entries
  induction entries with
  | nil => intro mask x hx; exact hx
  | cons e rest ih =>
    intro mask x hx
    rcases e with ⟨k, cands⟩
    rcases hg : getCorrespondenceNN minv mask cands with _ | ⟨c, mask2⟩
    · have hv : resolveCorrespondences minv ((k, cands) :: rest) mask =
          resolveCorrespondences minv rest mask := by
        simp [resolveCorrespondences, hg]
      rw [hv]
      exact ih mask x hx
    · have hv : resolveCorrespondences minv ((k, cands) :: rest) mask =
          (c :: (resolveCorrespondences minv rest mask2).1,
           (resolveCorrespondences minv rest mask2).2) := by
        simp [resolveCorrespondences, hg]
      rw [hv]
      obtain ⟨_, hm2, _⟩ := getCorrespondenceNN_some_facts minv mask cands c mask2 hg
      exact ih mask2 x (by rw [hm2]; exact List.mem_cons_of_mem _ hx)

/-- Every correspondence emitted by the resolution loop has a reference
that was unmasked on entry and is masked on exit. -/
theorem resolveCorrespondences_ref_facts (minv : Nat) :
    ∀ (entries : List (Nat × List Candidate)) (mask : List Nat) (c : Correspondence),
      c ∈ (resolveCorrespondences minv entries mask).1 →
      c.reference ∉ mask ∧ c.reference ∈ (resolveCorrespondences minv entries mask).2 := by
  intro entries
  induction entries with
  | nil => intro mask c hc; simp [resolveCorrespondences] at hc
  | cons e rest ih =>
    intro mask c hc
    rcases e with ⟨k, cands⟩
    rcases hg : getCorrespondenceNN minv mask cands with _ | ⟨c0, mask2⟩
    · have hv : resolveCorrespondences minv ((k, cands) :: rest) mask =
          resolveCorrespondences minv rest mask := by
        simp [resolveCorrespondences, hg]
      rw [hv] at hc ⊢
      exact ih mask c hc
    · have hv : resolveCorrespondences minv ((k, cands) :: rest) mask =
          (c0 :: (resolveCorrespondences minv rest mask2).1,
           (resolveCorrespondences minv rest mask2).2) := by
        simp [resolveCorrespondences, hg]
      obtain ⟨hnm, hm2, _⟩ := getCorrespondenceNN_some_facts minv mask cands c0 mask2 hg
      rw [hv] at hc ⊢
      rcases List.mem_cons.mp hc with hc1 | hc1
      · subst hc1
        refine ⟨hnm, ?_⟩
        exact resolveCorrespondences_mask_mem minv rest mask2 c.reference
          (by rw [hm2]; exact List.mem_cons_self _ _)
      · obtain ⟨h1, h2⟩ := ih mask2 c hc1
        refine ⟨?_, h2⟩
        intro hmem
        exact h1 (by rw [hm2]; exact List.mem_cons_of_mem _ hmem)

/-- References of the correspondences resolved in one pass are pairwise
distinct: each winner is masked before the next query landmark is
resolved. -/
theorem resolveCorrespondences_refs_pairwise (minv : Nat) :
    ∀ (entries : List (Nat × List Candidate)) (mask : List Nat),
      ((resolveCorrespondences minv entries mask).1).Pairwise
        (fun a b => a.reference ≠ b.reference) := by
  intro entries
  induction entries with
  | nil => intro mask; simp [resolveCorrespondences]
  | cons e rest ih =>
    intro mask
    rcases e with ⟨k, cands⟩
    rcases hg : getCorrespondenceNN minv mask cands with _ | ⟨c0, mask2⟩
    · have hv : resolveCorrespondences minv ((k, cands) :: rest) mask =
          resolveCorrespondences minv rest mask := by
        simp [resolveCorrespondences, hg]
      rw [hv]
      exact ih mask
    · have hv : resolveCorrespondences minv ((k, cands) :: rest) mask =
          (c0 :: (resolveCorrespondences minv rest mask2).1,
           (resolveCorrespondences minv rest mask2).2) := by
        simp [resolveCorrespondences, hg]
      obtain ⟨_, hm2, _⟩ := getCorrespondenceNN_some_facts minv mask cands c0 mask2 hg
      rw [hv]
      refine List.Pairwise.cons ?_ (ih mask2)
      intro b hb
      obtain ⟨h1, _⟩ := resolveCorrespondences_ref_facts minv rest mask2 b hb
      intro heq
      exact h1 (by rw [hm2, ← heq]; exact List.mem_cons_self _ _)

/-- Provided every candidate of every entry carries its entry's key as
query landmark, the queries of the resolved correspondences form a
sublist of the entry keys. -/
theorem resolveCorrespondences_queries_sublist (minv : Nat) :
    ∀ (entries : List (Nat × List Candidate)) (mask : List Nat),
      (∀ e ∈ entries, ∀ cand ∈ e.2, cand.query = e.1) →
      ((resolveCorrespondences minv entries mask).1.map
          (fun c => c.query)).Sublist (entries.map Prod.fst) := by
  intro entries
  induction entries with
  | nil => intro mask _; simp [resolveCorrespondences]
  | cons e rest ih =>
    intro mask hq
    rcases e with ⟨k, cands⟩
    have hqrest : ∀ e ∈ rest, ∀ cand ∈ e.2, cand.query = e.1 := by
      intro e he
      exact hq e (List.mem_cons_of_mem _ he)
    rcases hg : getCorrespondenceNN minv mask cands with _ | ⟨c0, mask2⟩
    · have hv : resolveCorrespondences minv ((k, cands) :: rest) mask =
          resolveCorrespondences minv rest mask := by
        simp [resolveCorrespondences, hg]
      rw [hv]
      exact (ih mask hqrest).cons k
    · have hv : resolveCorrespondences minv ((k, cands) :: rest) mask =
          (c0 :: (resolveCorrespondences minv rest mask2).1,
           (resolveCorrespondences minv rest mask2).2) := by
        simp [resolveCorrespondences, hg]
      obtain ⟨_, _, cand, hcand, hcq⟩ := getCorrespondenceNN_some_facts minv mask cands c0 mask2 hg
      have hc0 : c0.query = k := by
        rw [hcq]
        exact hq (k, cands) (List.mem_cons_self _ _) cand hcand
      rw [hv]
      simp only [List.map_cons, hc0]
      exact (ih mask2 hqrest).cons₂ k

/-- Key membership after an ordered-map insertion. -/
theorem insertCandidate_keys_mem (id : Nat) (cand : Candidate) :
    ∀ (m : List (Nat × List Candidate)) (x : Nat),
      x ∈ (insertCandidate id cand m).map Prod.fst ↔
        x = id ∨ x ∈ m.map Prod.fst := by
  intro m
  induction m with
  | nil => intro x; simp [insertCandidate]
  | cons e rest ih =>
    intro x
    rcases e with ⟨k, v⟩
    by_cases h1 : id < k
    · simp [insertCandidate, h1]
    · by_cases h2 : id = k
      · subst h2
        simp [insertCandidate, h1]
      · simp only [insertCandidate, if_neg h1, if_neg h2, List.map_cons, List.mem_cons, ih]
        tauto

/-- Ordered-map insertion keeps the key list strictly increasing. -/
theorem insertCandidate_keys_sorted (id : Nat) (cand : Candidate) :
    ∀ (m : List (Nat × List Candidate)),
      ((m.map Prod.fst).Pairwise (· < ·)) →
      (((insertCandidate id cand m).map Prod.fst).Pairwise (· < ·)) := by
  intro m
  induction m with
  | nil => intro _; simp [insertCandidate]
  | cons e rest ih =>
    intro hs
    rcases e with ⟨k, v⟩
    simp only [List.map_cons, List.pairwise_cons] at hs
    obtain ⟨hk, hrest⟩ := hs
    by_cases h1 : id < k
    · simp only [insertCandidate, if_pos h1, List.map_cons, List.pairwise_cons]
      refine ⟨?_, hk, hrest⟩
      intro b hb
      rcases List.mem_cons.mp hb with hb | hb
      · omega
      · exact lt_trans h1 (hk b hb)
    · by_cases h2 : id = k
      · simp only [insertCandidate, if_neg h1, if_pos h2, List.map_cons, List.pairwise_cons]
        exact ⟨hk, hrest⟩
      · simp only [insertCandidate, if_neg h1, if_neg h2, List.map_cons, List.pairwise_cons]
        refine ⟨?_, ih hrest⟩
        intro b hb
        rcases (insertCandidate_keys_mem id cand rest b).mp hb with hb1 | hb1
        · subst hb1
          omega
        · exact hk b hb1

/-- Ordered-map insertion keeps every stored candidate's query equal to
its entry's key, provided the inserted candidate carries its key. -/
theorem insertCandidate_values (id : Nat) (cand : Candidate) (hq : cand.query = id) :
    ∀ (m : List (Nat × List Candidate)),
      (∀ e ∈ m, ∀ cd ∈ e.2, cd.query = e.1) →
      (∀ e ∈ insertCandidate id cand m, ∀ cd ∈ e.2, cd.query = e.1) := by
  intro m
  induction m with
  | nil =>
    intro _ e he cd hcd
    simp [insertCandidate] at he
    subst he
    simp at hcd
    subst hcd
    exact hq
  | cons e0 rest ih =>
    intro hv e he cd hcd
    rcases e0 with ⟨k, v⟩
    have hvrest : ∀ e ∈ rest, ∀ cd ∈ e.2, cd.query = e.1 := by
      intro e1 he1
      exact hv e1 (List.mem_cons_of_mem _ he1)
    by_cases h1 : id < k
    · rw [insertCandidate, if_pos h1] at he
      rcases List.mem_cons.mp he with he | he
      · subst he
        simp at hcd
        subst hcd
        exact hq
      · exact hv e he cd hcd
    · by_cases h2 : id = k
      · rw [insertCandidate, if_neg h1, if_pos h2] at he
        rcases List.mem_cons.mp he with he | he
        · subst he
          rcases List.mem_append.mp hcd with hcd | hcd
          · exact hv (k, v) (List.mem_cons_self _ _) cd hcd
          · simp at hcd
            subst hcd
            rw [hq, h2]
        · exact hvrest e he cd hcd
      · rw [insertCandidate, if_neg h1, if_neg h2] at he
        rcases List.mem_cons.mp he with he | he
        · subst he
          exact hv (k, v) (List.mem_cons_self _ _) cd hcd
        · exact ih hvrest e he cd hcd

/-- Grouping raw matches per query landmark yields a strictly
key-sorted map whose stored candidates carry their key as query. -/
theorem groupMatchesByLandmark_wf (ms : List HMatch) :
    (((groupMatchesByLandmark ms).map Prod.fst).Pairwise (· < ·)) ∧
    (∀ e ∈ groupMatchesByLandmark ms, ∀ cd ∈ e.2, cd.query = e.1) := by
  have hgen : ∀ (l : List HMatch) (acc : List (Nat × List Candidate)),
      ((acc.map Prod.fst).Pairwise (· < ·)) →
      (∀ e ∈ acc, ∀ cd ∈ e.2, cd.query = e.1) →
      (((l.foldl (fun m mt => insertCandidate mt.object_query
            ⟨mt.object_query, mt.object_reference, mt.distance⟩ m) acc).map
          Prod.fst).Pairwise (· < ·)) ∧
      (∀ e ∈ l.foldl (fun m mt => insertCandidate mt.object_query
            ⟨mt.object_query, mt.object_reference, mt.distance⟩ m) acc,
          ∀ cd ∈ e.2, cd.query = e.1) := by
    intro l
    induction l with
    | nil => intro acc h1 h2; exact ⟨h1, h2⟩
    | cons mt rest ih =>
      intro acc h1 h2
      simp only [List.foldl_cons]
      exact ih
        (insertCandidate mt.object_query
          ⟨mt.object_query, mt.object_reference, mt.distance⟩ acc)
        (insertCandidate_keys_sorted mt.object_query
          ⟨mt.object_query, mt.object_reference, mt.distance⟩ acc h1)
        (insertCandidate_values mt.object_query
          ⟨mt.object_query, mt.object_reference, mt.distance⟩ rfl acc h2)
  exact hgen ms [] (by simp) (by simp)

/-- The correspondences of one resolution pass over a grouped candidate
map are pairwise distinct both in query landmark and in reference
landmark. -/
theorem resolved_pairwise_distinct (minv : Nat) (ms : List HMatch) :
    ((resolveCorrespondences minv (groupMatchesByLandmark ms) []).1).Pairwise
      (fun a b => a.query ≠ b.query ∧ a.reference ≠ b.reference) := by
  obtain ⟨hsorted, hvals⟩ := groupMatchesByLandmark_wf ms
  have hrefs := resolveCorrespondences_refs_pairwise minv (groupMatchesByLandmark ms) []
  have hsub := resolveCorrespondences_queries_sublist minv (groupMatchesByLandmark ms) [] hvals
  have hkeys_nodup : ((groupMatchesByLandmark ms).map Prod.fst).Nodup :=
    hsorted.imp (fun hab => Nat.ne_of_lt hab)
  have hqueries_nodup :
      ((resolveCorrespondences minv (groupMatchesByLandmark ms) []).1.map
        (fun c => c.query)).Nodup := hkeys_nodup.sublist hsub
  have hqueries :
      ((resolveCorrespondences minv (groupMatchesByLandmark ms) []).1).Pairwise
        (fun a b => a.query ≠ b.query) := List.pairwise_map.mp hqueries_nodup
  exact hqueries.and hrefs

/-- Closures appended by one reference-loop body carry pairwise-distinct
correspondences; pre-existing closures pass through. -/
theorem processReference_closures_distinct (p : RelocalizerParameters)
    (orc : Nat → List HMatch) (lm : LocalMap) (i : Nat) (st : RelocalizerState) :
    ∀ cl ∈ (processReference p orc lm i st).closures,
      cl ∈ st.closures ∨
        cl.correspondences.Pairwise
          (fun a b => a.query ≠ b.query ∧ a.reference ≠ b.reference) := by
  intro cl hcl
  rw [processReference] at hcl
  by_cases h1 : ((orc i).length : ℚ) / (lm.number_of_appearances : ℚ) <
      p.preliminary_minimum_matching_ratio
  · rw [if_pos h1] at hcl
    exact Or.inl hcl
  · rw [if_neg h1] at hcl
    by_cases h2 : (groupMatchesByLandmark (orc i)).length <
        p.minimum_number_of_matched_landmarks
    · rw [if_pos h2] at hcl
      exact Or.inl hcl
    · rw [if_neg h2] at hcl
      simp only [List.mem_append, List.mem_singleton] at hcl
      rcases hcl with hcl | hcl
      · exact Or.inl hcl
      · subst hcl
        exact Or.inr (resolved_pairwise_distinct _ _)

/-- C1, amended: within one detection cycle the pairwise-distinctness of
query and reference landmarks holds per emitted Closure (the
used-reference mask is cleared at the start of each reference local map's
resolution), not across the whole cycle: every closure present after
detectClosures either predates the call or has correspondences with
pairwise distinct query landmarks and pairwise distinct reference
landmarks. -/
theorem closure_correspondences_pairwise_distinct (p : RelocalizerParameters)
    (orc : Nat → List HMatch) (lmq : Option LocalMap) (st : RelocalizerState)
    (cl : Closure) (hcl : cl ∈ (detectClosures p orc lmq st).closures) :
    cl ∈ st.closures ∨
      cl.correspondences.Pairwise
        (fun a b => a.query ≠ b.query ∧ a.reference ≠ b.reference) := by
  cases lmq with
  | none => exact Or.inl hcl
  | some lm =>
    have hfold : ∀ (L : List Nat) (stA : RelocalizerState) (cl : Closure),
        cl ∈ (L.foldl (fun acc i => processReference p orc lm i acc) stA).closures →
        cl ∈ stA.closures ∨
          cl.correspondences.Pairwise
            (fun a b => a.query ≠ b.query ∧ a.reference ≠ b.reference) := by
      intro L
      induction L with
      | nil => intro stA cl hc; exact Or.inl hc
      | cons i L ih =>
        intro stA cl hc
        simp only [List.foldl_cons] at hc
        rcases ih (processReference p orc lm i stA) cl hc with hc1 | hc1
        · exact processReference_closures_distinct p orc lm i stA cl hc1
        · exact Or.inr hc1
    simp only [detectClosures] at hcl
    split_ifs at hcl with hw
    · exact Or.inl hcl
    · exact hfold
        (List.range (st.place_database_size + 1 - p.preliminary_minimum_interspace_queries))
        ⟨st.added_local_maps ++ [lm], st.place_database_size + 1, st.closures,
          st.mask_id_references_for_correspondences, st.getchar_calls⟩ cl hcl

/-- Witness for the amended per-closure distinctness, applied to the first
closure of the concrete two-reference cycle. -/
theorem closure_correspondences_pairwise_distinct_witness :
    ((⟨2, 0, 1, 1, [⟨1, 10, 1, 1⟩]⟩ : Closure) ∈
        (detectClosures ⟨1, 1/2, 1, 0, 50⟩
          (fun i => if i < 2 then [⟨1, 10, 3⟩] else [])
          (some ⟨2, 1⟩)
          ⟨[⟨0, 1⟩, ⟨1, 1⟩], 2, [], [], 0⟩).closures) ∧
    ((⟨2, 0, 1, 1, [⟨1, 10, 1, 1⟩]⟩ : Closure) ∈
        (⟨[⟨0, 1⟩, ⟨1, 1⟩], 2, [], [], 0⟩ : RelocalizerState).closures ∨
      ([⟨1, 10, 1, 1⟩] : List Correspondence).Pairwise
        (fun a b => a.query ≠ b.query ∧ a.reference ≠ b.reference)) := by
  have hmem : (⟨2, 0, 1, 1, [⟨1, 10, 1, 1⟩]⟩ : Closure) ∈
      (detectClosures ⟨1, 1/2, 1, 0, 50⟩
        (fun i => if i < 2 then [⟨1, 10, 3⟩] else [])
        (some ⟨2, 1⟩)
        ⟨[⟨0, 1⟩, ⟨1, 1⟩], 2, [], [], 0⟩).closures := by
    norm_num [detectClosures, processReference, groupMatchesByLandmark, insertCandidate,
      resolveCorrespondences, getCorrespondenceNN, voteLoop, List.range_succ]
  exact ⟨hmem, closure_correspondences_pairwise_distinct _ _ _ _ _ hmem⟩

/-- C1, counterexample: the used-reference mask is cleared at the start of
each reference local map's resolution (relocalizer.cpp line 101, inside the
reference loop), not once per cycle, so a single detectClosures cycle with
two eligible references can emit two correspondences with the same query
landmark and the same reference landmark. -/
theorem cycle_correspondences_not_pairwise_distinct :
    ¬ List.Pairwise (fun a b : Correspondence => a.query ≠ b.query ∧ a.reference ≠ b.reference)
      (((detectClosures ⟨1, 1/2, 1, 0, 50⟩
          (fun i => if i < 3 then [⟨1, 10, 3⟩] else [])
          (some ⟨2, 1⟩)
          ⟨[⟨0, 1⟩, ⟨1, 1⟩], 2, [], [], 0⟩).closures).foldr
            (fun cl acc => cl.correspondences ++ acc) []) := by
  norm_num [detectClosures, processReference, groupMatchesByLandmark, insertCandidate,
    resolveCorrespondences, getCorrespondenceNN, voteLoop, List.range_succ,
    List.pairwise_cons]

/-- One reference-loop body appends exactly its emitted closures and
leaves the added-local-map list and the database size unchanged. -/
theorem processReference_spec (p : RelocalizerParameters) (orc : Nat → List HMatch)
    (lm : LocalMap) (i : Nat) (st : RelocalizerState) :
    (processReference p orc lm i st).closures =
      st.closures ++ emittedClosures p orc lm st.added_local_maps i ∧
    (processReference p orc lm i st).added_local_maps = st.added_local_maps ∧
    (processReference p orc lm i st).place_database_size = st.place_database_size := by
  by_cases h1 : ((orc i).length : ℚ) / (lm.number_of_appearances : ℚ) <
      p.preliminary_minimum_matching_ratio
  · have he : emittedClosures p orc lm st.added_local_maps i = [] := by
      rw [emittedClosures, if_neg]
      intro hcon
      exact absurd h1 (not_lt.mpr hcon.1)
    rw [processReference, if_pos h1, he]
    simp
  · by_cases h2 : (groupMatchesByLandmark (orc i)).length <
        p.minimum_number_of_matched_landmarks
    · have he : emittedClosures p orc lm st.added_local_maps i = [] := by
        rw [emittedClosures, if_neg]
        intro hcon
        exact absurd h2 (not_lt.mpr hcon.2)
      rw [processReference, if_neg h1, if_pos h2, he]
      simp
    · have he : emittedClosures p orc lm st.added_local_maps i =
          [⟨lm.identifier, (st.added_local_maps.getD i ⟨0, 0⟩).identifier,
            (groupMatchesByLandmark (orc i)).length,
            ((orc i).length : ℚ) / (lm.number_of_appearances : ℚ),
            (resolveCorrespondences p.minimum_matches_per_correspondence
              (groupMatchesByLandmark (orc i)) []).1⟩] := by
        rw [emittedClosures, if_pos ⟨not_lt.mp h1, not_lt.mp h2⟩]
      rw [processReference, if_neg h1, if_neg h2, he]
      exact ⟨rfl, rfl, rfl⟩

/-- The reference loop appends the concatenation of the per-index
emissions and never changes the added-local-map list. -/
theorem fold_processReference_closures (p : RelocalizerParameters)
    (orc : Nat → List HMatch) (lm : LocalMap) :
    ∀ (L : List Nat) (stA : RelocalizerState),
      (L.foldl (fun acc i => processReference p orc lm i acc) stA).closures =
        stA.closures ++
          L.foldr (fun i acc => emittedClosures p orc lm stA.added_local_maps i ++ acc) [] ∧
      (L.foldl (fun acc i => processReference p orc lm i acc) stA).added_local_maps =
        stA.added_local_maps := by
  intro L
  induction L with
  | nil => intro stA; simp
  | cons i L ih =>
    intro stA
    simp only [List.foldl_cons, List.foldr_cons]
    obtain ⟨hc, ha, _⟩ := processReference_spec p orc lm i stA
    obtain ⟨ihc, iha⟩ := ih (processReference p orc lm i stA)
    rw [hc, ha] at ihc
    rw [ha] at iha
    exact ⟨by rw [ihc, List.append_assoc], iha⟩

/-- The keys of the grouped candidate map are exactly the query landmark
identifiers occurring in the raw match list. -/
theorem groupMatchesByLandmark_keys_mem (ms : List HMatch) (x : Nat) :
    x ∈ (groupMatchesByLandmark ms).map Prod.fst ↔
      x ∈ ms.map (fun mt => mt.object_query) := by
  have hgen : ∀ (l : List HMatch) (acc : List (Nat × List Candidate)) (x : Nat),
      (x ∈ (l.foldl (fun m mt => insertCandidate mt.object_query
          ⟨mt.object_query, mt.object_reference, mt.distance⟩ m) acc).map Prod.fst) ↔
      (x ∈ acc.map Prod.fst ∨ x ∈ l.map (fun mt => mt.object_query)) := by
    intro l
    induction l with
    | nil => intro acc x; simp
    | cons mt rest ih =>
      intro acc x
      simp only [List.foldl_cons, List.map_cons, List.mem_cons]
      rw [ih (insertCandidate mt.object_query
          ⟨mt.object_query, mt.object_reference, mt.distance⟩ acc) x,
        insertCandidate_keys_mem]
      tauto
  rw [groupMatchesByLandmark, hgen ms [] x]
  simp

/-- The size of the grouped candidate map is the number of distinct query
landmarks having at least one candidate. -/
theorem groupMatchesByLandmark_distinct_count (ms : List HMatch) :
    (groupMatchesByLandmark ms).length =
      (ms.map (fun mt => mt.object_query)).toFinset.card := by
  obtain ⟨hsorted, _⟩ := groupMatchesByLandmark_wf ms
  have hnodup : ((groupMatchesByLandmark ms).map Prod.fst).Nodup :=
    hsorted.imp (fun hab => Nat.ne_of_lt hab)
  have hsetEq : ((groupMatchesByLandmark ms).map Prod.fst).toFinset =
      (ms.map (fun mt => mt.object_query)).toFinset := by
    ext x
    simp only [List.mem_toFinset]
    exact groupMatchesByLandmark_keys_mem ms x
  calc (groupMatchesByLandmark ms).length
      = ((groupMatchesByLandmark ms).map Prod.fst).length := by simp
    _ = ((groupMatchesByLandmark ms).map Prod.fst).toFinset.card :=
        (List.toFinset_card_of_nodup hnodup).symm
    _ = (ms.map (fun mt => mt.object_query)).toFinset.card := by rw [hsetEq]

/-- C7: in the query phase, for each eligible reference index the cycle
appends exactly one closure when the match ratio reaches the minimum
matching ratio and the number of distinct matched query landmarks reaches
the minimum matched-landmark count, and nothing otherwise; the closure
carries the reference local map, the distinct-landmark count, the ratio
and the resolved correspondences (possibly empty).  The matched-landmark
count used by the code is the number of distinct query landmarks with at
least one candidate. -/
theorem detectClosures_emission (p : RelocalizerParameters) (orc : Nat → List HMatch)
    (lm : LocalMap) (st : RelocalizerState)
    (hq : p.preliminary_minimum_interspace_queries ≤ st.place_database_size)
    (hnq : 0 < lm.number_of_appearances) :
    (detectClosures p orc (some lm) st).closures =
      st.closures ++
        (List.range (st.place_database_size + 1 -
            p.preliminary_minimum_interspace_queries)).foldr
          (fun i acc => emittedClosures p orc lm (st.added_local_maps ++ [lm]) i ++ acc) [] ∧
    ∀ i, (groupMatchesByLandmark (orc i)).length =
      ((orc i).map (fun mt => mt.object_query)).toFinset.card := by
  constructor
  · have hnw : ¬ (st.place_database_size < p.preliminary_minimum_interspace_queries) :=
      not_lt.mpr hq
    simp only [detectClosures]
    rw [if_neg hnw]
    exact (fold_processReference_closures p orc lm
      (List.range (st.place_database_size + 1 - p.preliminary_minimum_interspace_queries))
      ⟨st.added_local_maps ++ [lm], st.place_database_size + 1, st.closures,
        st.mask_id_references_for_correspondences, st.getchar_calls⟩).1
  · intro i
    exact groupMatchesByLandmark_distinct_count (orc i)

/-- Witness for the emission theorem on the concrete two-reference cycle. -/
theorem detectClosures_emission_witness :
    ((1 : Nat) ≤ 2 ∧ (0 : Nat) < 1) ∧
    ((detectClosures ⟨1, 1/2, 1, 0, 50⟩
        (fun i => if i < 2 then [⟨1, 10, 3⟩] else [])
        (some ⟨2, 1⟩)
        ⟨[⟨0, 1⟩, ⟨1, 1⟩], 2, [], [], 0⟩).closures =
      [] ++ (List.range 2).foldr
          (fun i acc => emittedClosures ⟨1, 1/2, 1, 0, 50⟩
            (fun i => if i < 2 then [⟨1, 10, 3⟩] else [])
            ⟨2, 1⟩ [⟨0, 1⟩, ⟨1, 1⟩, ⟨2, 1⟩] i ++ acc) [] ∧
     ∀ i, (groupMatchesByLandmark
          ((fun i => if i < 2 then [(⟨1, 10, 3⟩ : HMatch)] else []) i)).length =
        (((fun i => if i < 2 then [(⟨1, 10, 3⟩ : HMatch)] else []) i).map
          (fun mt => mt.object_query)).toFinset.card) :=
  ⟨⟨by decide, by decide⟩,
   detectClosures_emission ⟨1, 1/2, 1, 0, 50⟩
     (fun i => if i < 2 then [⟨1, 10, 3⟩] else []) ⟨2, 1⟩
     ⟨[⟨0, 1⟩, ⟨1, 1⟩], 2, [], [], 0⟩ (by decide) (by decide)⟩

/-! ## Theorems about the UVD alignment engine -/

/-- Shifting the convergence test by one iteration matches running one
round first. -/
theorem convergenceTestFrom_succ (ctx : UVDAlignerContext) (prev : ℚ)
    (st : UVDAlignerState) (i : Nat) :
    convergenceTestFrom ctx prev st (i + 1) ↔
      convergenceTestFrom ctx (oneRound ctx false st).total_error
        (oneRound ctx false st) i := by
  cases i with
  | zero => exact Iff.rfl
  | succ i2 => exact Iff.rfl

/-- If the convergence test first succeeds at iteration i0 within the
budget, the loop performs i0+1 standard rounds and then the convergence
epilogue. -/
theorem convergeLoop_first_conv (ctx : UVDAlignerContext) :
    ∀ (k : Nat) (prev : ℚ) (st : UVDAlignerState) (i0 : Nat),
      i0 < k →
      convergenceTestFrom ctx prev st i0 →
      (∀ j, j < i0 → ¬ convergenceTestFrom ctx prev st j) →
      convergeLoop ctx k prev st = finishConverge ctx (oneRoundIter ctx (i0 + 1) st) := by
  intro k
  induction k with
  | zero =>
    intro prev st i0 h _ _
    exact absurd h (Nat.not_lt_zero i0)
  | succ k ih =>
    intro prev st i0 hi0 htest hprior
    cases i0 with
    | zero =>
      have h0 : |prev - (oneRound ctx false st).total_error| <
          ctx.parameters.error_delta_for_convergence := htest
      simp only [convergeLoop]
      rw [if_pos h0]
      rfl
    | succ i1 =>
      have h0 : ¬ (|prev - (oneRound ctx false st).total_error| <
          ctx.parameters.error_delta_for_convergence) := fun hcon =>
        hprior 0 (Nat.succ_pos i1) hcon
      simp only [convergeLoop]
      rw [if_neg h0]
      cases k with
      | zero => exact absurd hi0 (by omega)
      | succ k2 =>
        rw [if_neg (Nat.succ_ne_zero k2)]
        have htest2 : convergenceTestFrom ctx (oneRound ctx false st).total_error
            (oneRound ctx false st) i1 :=
          (convergenceTestFrom_succ ctx prev st i1).mp htest
        have hprior2 : ∀ j, j < i1 →
            ¬ convergenceTestFrom ctx (oneRound ctx false st).total_error
              (oneRound ctx false st) j := by
          intro j hj hcon
          exact hprior (j + 1) (by omega) ((convergenceTestFrom_succ ctx prev st j).mpr hcon)
        exact ih (oneRound ctx false st).total_error (oneRound ctx false st) i1
          (by omega) htest2 hprior2

/-- If the convergence test fails at every iteration of the budget, the
loop performs all rounds and clears the converged flag. -/
theorem convergeLoop_no_conv (ctx : UVDAlignerContext) :
    ∀ (k : Nat) (prev : ℚ) (st : UVDAlignerState),
      0 < k →
      (∀ j, j < k → ¬ convergenceTestFrom ctx prev st j) →
      convergeLoop ctx k prev st =
        { oneRoundIter ctx k st with has_system_converged := false } := by
  intro k
  induction k with
  | zero =>
    intro prev st h _
    exact absurd h (by omega)
  | succ k ih =>
    intro prev st _ hall
    have h0 : ¬ (|prev - (oneRound ctx false st).total_error| <
        ctx.parameters.error_delta_for_convergence) := fun hcon =>
      hall 0 (Nat.succ_pos k) hcon
    simp only [convergeLoop]
    rw [if_neg h0]
    cases k with
    | zero =>
      rw [if_pos rfl]
      rfl
    | succ k2 =>
      rw [if_neg (Nat.succ_ne_zero k2)]
      have hall2 : ∀ j, j < k2 + 1 →
          ¬ convergenceTestFrom ctx (oneRound ctx false st).total_error
            (oneRound ctx false st) j := by
        intro j hj hcon
        exact hall (j + 1) (by omega) ((convergenceTestFrom_succ ctx prev st j).mpr hcon)
      exact ih (oneRound ctx false st).total_error (oneRound ctx false st) (by omega) hall2

/-- C4: converge performs at most the configured maximum of standard
rounds; at the first iteration whose error change falls strictly below
the convergence delta it runs the epilogue (exactly three inlier-only
rounds, records the then-current H as information matrix, sets the flag);
if the budget is exhausted without the test holding the flag is set
false; a zero budget leaves the state untouched; in every case the
wrapped robot-to-world transform and its inverse are recomputed from the
final world-to-camera estimate. -/
theorem converge_control_flow (ctx : UVDAlignerContext) (st : UVDAlignerState) :
    (ctx.parameters.maximum_number_of_iterations = 0 →
        converge ctx st = updateWrappedTransforms ctx st) ∧
    (∀ i0, i0 < ctx.parameters.maximum_number_of_iterations →
        convergenceTest ctx st i0 →
        (∀ j, j < i0 → ¬ convergenceTest ctx st j) →
        converge ctx st =
          updateWrappedTransforms ctx
            (finishConverge ctx (oneRoundIter ctx (i0 + 1) st))) ∧
    (0 < ctx.parameters.maximum_number_of_iterations →
        (∀ j, j < ctx.parameters.maximum_number_of_iterations →
            ¬ convergenceTest ctx st j) →
        converge ctx st =
          updateWrappedTransforms ctx
            { oneRoundIter ctx ctx.parameters.maximum_number_of_iterations st with
                has_system_converged := false }) := by
  refine ⟨?_, ?_, ?_⟩
  · intro h0
    rw [converge, h0]
    rfl
  · intro i0 hi0 ht hp
    rw [converge, convergeLoop_first_conv ctx _ 0 st i0 hi0 ht hp]
  · intro hpos hall
    rw [converge, convergeLoop_no_conv ctx _ 0 st hpos hall]

/-- Witness for the converge control flow: an empty frame under the
abstract solver converges at iteration 0 of a budget of 5 (zero error
change), so converge performs one standard round, the epilogue, and the
wrapped-transform update. -/
theorem converge_control_flow_witness :
    ((0 : Nat) < 5 ∧
     convergenceTest
        ⟨⟨[], ⟨Mat3.identity, 100, 100, Iso3.id, Iso3.id⟩⟩, ⟨5, 1, 1, 1, 1, 10, 1⟩,
          fun _ _ => Vec6.zero, fun _ => Iso3.id⟩
        ⟨Iso3.id, Iso3.id, Iso3.id, Iso3.id, Mat6.zero, Vec6.zero, Mat6.zero, 0, 0, 0,
          [], [], false⟩ 0) ∧
    converge
        ⟨⟨[], ⟨Mat3.identity, 100, 100, Iso3.id, Iso3.id⟩⟩, ⟨5, 1, 1, 1, 1, 10, 1⟩,
          fun _ _ => Vec6.zero, fun _ => Iso3.id⟩
        ⟨Iso3.id, Iso3.id, Iso3.id, Iso3.id, Mat6.zero, Vec6.zero, Mat6.zero, 0, 0, 0,
          [], [], false⟩ =
      updateWrappedTransforms
        ⟨⟨[], ⟨Mat3.identity, 100, 100, Iso3.id, Iso3.id⟩⟩, ⟨5, 1, 1, 1, 1, 10, 1⟩,
          fun _ _ => Vec6.zero, fun _ => Iso3.id⟩
        (finishConverge
          ⟨⟨[], ⟨Mat3.identity, 100, 100, Iso3.id, Iso3.id⟩⟩, ⟨5, 1, 1, 1, 1, 10, 1⟩,
            fun _ _ => Vec6.zero, fun _ => Iso3.id⟩
          (oneRoundIter
            ⟨⟨[], ⟨Mat3.identity, 100, 100, Iso3.id, Iso3.id⟩⟩, ⟨5, 1, 1, 1, 1, 10, 1⟩,
              fun _ _ => Vec6.zero, fun _ => Iso3.id⟩ 1
            ⟨Iso3.id, Iso3.id, Iso3.id, Iso3.id, Mat6.zero, Vec6.zero, Mat6.zero, 0, 0, 0,
              [], [], false⟩)) := by
  have ht : convergenceTest
      ⟨⟨[], ⟨Mat3.identity, 100, 100, Iso3.id, Iso3.id⟩⟩, ⟨5, 1, 1, 1, 1, 10, 1⟩,
        fun _ _ => Vec6.zero, fun _ => Iso3.id⟩
      ⟨Iso3.id, Iso3.id, Iso3.id, Iso3.id, Mat6.zero, Vec6.zero, Mat6.zero, 0, 0, 0,
        [], [], false⟩ 0 := by
    norm_num [convergenceTest, convergenceTestFrom, iterError, oneRoundIter, oneRound,
      linearize, pointResults]
  exact ⟨⟨by norm_num, ht⟩,
    (converge_control_flow _ _).2.1 0 (by norm_num) ht
      (fun j hj => absurd hj (Nat.not_lt_zero j))⟩

/-- A processed point is classified exactly as inlier or outlier. -/
theorem processPoint_processed_eq (ctx : UVDAlignerContext) (ign : Bool)
    (wtc : Iso3) (fp : FramePoint) :
    (processPoint ctx ign wtc fp).processed =
      ((processPoint ctx ign wtc fp).is_inlier || (processPoint ctx ign wtc fp).is_outlier) := by
  simp only [processPoint]
  split_ifs <;> simp [skippedPointResult, assembleContribution]

/-- No point is classified inlier and outlier at once. -/
theorem processPoint_not_both (ctx : UVDAlignerContext) (ign : Bool)
    (wtc : Iso3) (fp : FramePoint) :
    ¬ ((processPoint ctx ign wtc fp).is_inlier = true ∧
       (processPoint ctx ign wtc fp).is_outlier = true) := by
  simp only [processPoint]
  split_ifs <;> simp [skippedPointResult, assembleContribution]

/-- Classification and robust-kernel facts for one processed point: the
inlier flag holds exactly when the stored squared residual is at most the
kernel threshold, the outlier tally exactly when it exceeds it; an
ignored outlier contributes nothing, an included outlier has its omega
scaled by threshold/chi, an inlier's omega is unscaled. -/
theorem processPoint_facts (ctx : UVDAlignerContext) (ign : Bool) (wtc : Iso3)
    (fp : FramePoint)
    (hp : (processPoint ctx ign wtc fp).processed = true) :
    ((processPoint ctx ign wtc fp).is_inlier = true ↔
        (processPoint ctx ign wtc fp).err ≤ ctx.parameters.maximum_error_kernel) ∧
    ((processPoint ctx ign wtc fp).is_outlier = true ↔
        ctx.parameters.maximum_error_kernel < (processPoint ctx ign wtc fp).err) ∧
    (ign = true → (processPoint ctx ign wtc fp).is_outlier = true →
        (processPoint ctx ign wtc fp).dH = Mat6.zero ∧
        (processPoint ctx ign wtc fp).db = Vec6.zero ∧
        (processPoint ctx ign wtc fp).dtotal = 0) ∧
    (ign = false → (processPoint ctx ign wtc fp).is_outlier = true →
        (processPoint ctx ign wtc fp).omega_robust =
          (ctx.parameters.maximum_error_kernel / (processPoint ctx ign wtc fp).err) •
            (processPoint ctx ign wtc fp).omega_base) ∧
    ((processPoint ctx ign wtc fp).is_inlier = true →
        (processPoint ctx ign wtc fp).omega_robust =
          (processPoint ctx ign wtc fp).omega_base) := by
  revert hp
  simp only [processPoint]
  generalize (if usesLandmark fp = true then initialOmega
      else ctx.parameters.weight_framepoint • initialOmega) = ob
  split_ifs with h1 h2 h3 h4 <;> intro hp
  · simp [skippedPointResult] at hp
  · simp [skippedPointResult] at hp
  · simp [skippedPointResult, h3, h4, not_le.mpr h3]
  · simp [assembleContribution, h3, h4, not_le.mpr h3]
  · simp [assembleContribution, h3, not_lt.mp h3]

/-- Disjoint Boolean counts add up to the count of the disjunction. -/
theorem countP_disjoint_add {α : Type} (p q : α → Bool) :
    ∀ l : List α, (∀ a ∈ l, ¬ (p a = true ∧ q a = true)) →
      l.countP p + l.countP q = l.countP (fun a => p a || q a) := by
  intro l
  induction l with
  | nil => intro _; simp
  | cons a t ih =>
    intro h
    have hrec := ih (fun x hx => h x (List.mem_cons_of_mem a hx))
    have hhead := h a (List.mem_cons_self a t)
    simp only [List.countP_cons]
    rw [← hrec]
    cases hpa : p a <;> cases hqa : q a
    · simp [hpa, hqa] <;> omega
    · simp [hpa, hqa] <;> omega
    · simp [hpa, hqa] <;> omega
    · exact absurd ⟨hpa, hqa⟩ hhead

/-- Pointwise-equal Boolean predicates count equally. -/
theorem countP_congr_mem {α : Type} (p q : α → Bool) :
    ∀ l : List α, (∀ a ∈ l, p a = q a) → l.countP p = l.countP q := by
  intro l
  induction l with
  | nil => intro _; simp
  | cons a t ih =>
    intro h
    simp only [List.countP_cons]
    rw [ih (fun x hx => h x (List.mem_cons_of_mem a hx)), h a (List.mem_cons_self a t)]

/-- C5: after linearize, the inlier and outlier counters partition the
processed points (those passing the depth and image-bounds checks), each
processed point is inlier exactly when its squared residual is at most
the kernel threshold and outlier exactly when it strictly exceeds it,
ignored outliers contribute nothing to H, b or the total error, and an
included outlier's information weight is down-weighted by threshold/chi
(an inlier's is not). -/
theorem linearize_inlier_outlier_partition (ctx : UVDAlignerContext) (ign : Bool)
    (st : UVDAlignerState) :
    ((linearize ctx ign st).number_of_inliers + (linearize ctx ign st).number_of_outliers =
      (pointResults ctx ign st.world_to_camera).countP (fun r => r.processed)) ∧
    ∀ r ∈ pointResults ctx ign st.world_to_camera, r.processed = true →
      ((r.is_inlier = true ↔ r.err ≤ ctx.parameters.maximum_error_kernel) ∧
       (r.is_outlier = true ↔ ctx.parameters.maximum_error_kernel < r.err) ∧
       ¬ (r.is_inlier = true ∧ r.is_outlier = true) ∧
       (ign = true → r.is_outlier = true →
          r.dH = Mat6.zero ∧ r.db = Vec6.zero ∧ r.dtotal = 0) ∧
       (ign = false → r.is_outlier = true →
          r.omega_robust =
            (ctx.parameters.maximum_error_kernel / r.err) • r.omega_base) ∧
       (r.is_inlier = true → r.omega_robust = r.omega_base)) := by
  constructor
  · show (pointResults ctx ign st.world_to_camera).countP (fun r => r.is_inlier) +
        (pointResults ctx ign st.world_to_camera).countP (fun r => r.is_outlier) =
      (pointResults ctx ign st.world_to_camera).countP (fun r => r.processed)
    have hdis : ∀ r ∈ pointResults ctx ign st.world_to_camera,
        ¬ (r.is_inlier = true ∧ r.is_outlier = true) := by
      intro r hr
      rcases List.mem_map.mp hr with ⟨fp, _, rfl⟩
      exact processPoint_not_both ctx ign st.world_to_camera fp
    have hpe : ∀ r ∈ pointResults ctx ign st.world_to_camera,
        (r.is_inlier || r.is_outlier) = r.processed := by
      intro r hr
      rcases List.mem_map.mp hr with ⟨fp, _, rfl⟩
      exact (processPoint_processed_eq ctx ign st.world_to_camera fp).symm
    rw [countP_disjoint_add _ _ _ hdis]
    exact countP_congr_mem _ _ _ hpe
  · intro r hr hp
    rcases List.mem_map.mp hr with ⟨fp, _, rfl⟩
    obtain ⟨f1, f2, f3, f4, f5⟩ := processPoint_facts ctx ign st.world_to_camera fp hp
    exact ⟨f1, f2, processPoint_not_both ctx ign st.world_to_camera fp, f3, f4, f5⟩

/-- Unfolding of vector addition (instance form). -/
theorem vec3_add_def (a b : Vec3) : a + b = ⟨a.x + b.x, a.y + b.y, a.z + b.z⟩ := rfl

/-- Witness for the linearize partition theorem, instantiated at a frame
with one exactly-predicted point. -/
theorem linearize_inlier_outlier_partition_witness :
    ((linearize
        ⟨⟨[⟨⟨0, 0, 1⟩, ⟨0, 0, 5⟩, ⟨0, 0, 0⟩, some ⟨⟨0, 0, 5⟩, true⟩⟩],
            ⟨Mat3.identity, 100, 100, Iso3.id, Iso3.id⟩⟩, ⟨5, 1, 1, 1, 1, 10, 1⟩,
          fun _ _ => Vec6.zero, fun _ => Iso3.id⟩ false
        ⟨Iso3.id, Iso3.id, Iso3.id, Iso3.id, Mat6.zero, Vec6.zero, Mat6.zero, 0, 0, 0,
          [], [], false⟩).number_of_inliers +
      (linearize
        ⟨⟨[⟨⟨0, 0, 1⟩, ⟨0, 0, 5⟩, ⟨0, 0, 0⟩, some ⟨⟨0, 0, 5⟩, true⟩⟩],
            ⟨Mat3.identity, 100, 100, Iso3.id, Iso3.id⟩⟩, ⟨5, 1, 1, 1, 1, 10, 1⟩,
          fun _ _ => Vec6.zero, fun _ => Iso3.id⟩ false
        ⟨Iso3.id, Iso3.id, Iso3.id, Iso3.id, Mat6.zero, Vec6.zero, Mat6.zero, 0, 0, 0,
          [], [], false⟩).number_of_outliers =
      (pointResults
        ⟨⟨[⟨⟨0, 0, 1⟩, ⟨0, 0, 5⟩, ⟨0, 0, 0⟩, some ⟨⟨0, 0, 5⟩, true⟩⟩],
            ⟨Mat3.identity, 100, 100, Iso3.id, Iso3.id⟩⟩, ⟨5, 1, 1, 1, 1, 10, 1⟩,
          fun _ _ => Vec6.zero, fun _ => Iso3.id⟩ false Iso3.id).countP
        (fun r => r.processed)) ∧
    ∀ r ∈ pointResults
        ⟨⟨[⟨⟨0, 0, 1⟩, ⟨0, 0, 5⟩, ⟨0, 0, 0⟩, some ⟨⟨0, 0, 5⟩, true⟩⟩],
            ⟨Mat3.identity, 100, 100, Iso3.id, Iso3.id⟩⟩, ⟨5, 1, 1, 1, 1, 10, 1⟩,
          fun _ _ => Vec6.zero, fun _ => Iso3.id⟩ false Iso3.id,
      r.processed = true →
      ((r.is_inlier = true ↔ r.err ≤ 1) ∧
       (r.is_outlier = true ↔ 1 < r.err) ∧
       ¬ (r.is_inlier = true ∧ r.is_outlier = true) ∧
       (false = true → r.is_outlier = true →
          r.dH = Mat6.zero ∧ r.db = Vec6.zero ∧ r.dtotal = 0) ∧
       (false = false → r.is_outlier = true →
          r.omega_robust = ((1 : ℚ) / r.err) • r.omega_base) ∧
       (r.is_inlier = true → r.omega_robust = r.omega_base)) :=
  linearize_inlier_outlier_partition
    ⟨⟨[⟨⟨0, 0, 1⟩, ⟨0, 0, 5⟩, ⟨0, 0, 0⟩, some ⟨⟨0, 0, 5⟩, true⟩⟩],
        ⟨Mat3.identity, 100, 100, Iso3.id, Iso3.id⟩⟩, ⟨5, 1, 1, 1, 1, 10, 1⟩,
      fun _ _ => Vec6.zero, fun _ => Iso3.id⟩ false
    ⟨Iso3.id, Iso3.id, Iso3.id, Iso3.id, Mat6.zero, Vec6.zero, Mat6.zero, 0, 0, 0,
      [], [], false⟩

/-- C6: for every point that contributes (passes the depth and
image-bounds checks and is not an outlier being ignored), the assembled
3×6 transform Jacobian has translation block equal to the identity
exactly when the predicted depth is strictly below the near-depth
threshold and zero otherwise, and rotation block always equal to −2 times
the skew-symmetric matrix of the predicted camera-frame point. -/
theorem jacobian_transform_blocks (ctx : UVDAlignerContext) (ign : Bool) (wtc : Iso3)
    (fp : FramePoint)
    (hp : (processPoint ctx ign wtc fp).processed = true)
    (hc : ign = false ∨ (processPoint ctx ign wtc fp).is_outlier = false) :
    (processPoint ctx ign wtc fp).jacobian_transform.left =
      (if (predictedPointInCamera wtc fp).z < ctx.parameters.maximum_depth_near_meters
       then Mat3.identity else Mat3.zero) ∧
    (processPoint ctx ign wtc fp).jacobian_transform.right =
      (-2 : ℚ) • skew (predictedPointInCamera wtc fp) := by
  simp only [processPoint] at hp hc ⊢
  by_cases h1 : (predictedPointInCamera wtc fp).z ≤ 0 ∨
      ctx.parameters.maximum_depth_far_meters < (predictedPointInCamera wtc fp).z
  · rw [if_pos h1] at hp
    simp [skippedPointResult] at hp
  · rw [if_neg h1] at hp hc ⊢
    by_cases h2 : outOfImage ctx wtc fp
    · rw [if_pos h2] at hp
      simp [skippedPointResult] at hp
    · rw [if_neg h2] at hp hc ⊢
      by_cases h3 : ctx.parameters.maximum_error_kernel < pointChi ctx wtc fp
      · rw [if_pos h3] at hp hc ⊢
        by_cases h4 : ign = true
        · rw [if_pos h4] at hc ⊢
          rcases hc with hc | hc
          · rw [hc] at h4
            exact absurd h4 (by simp)
          · simp [skippedPointResult] at hc
        · rw [if_neg h4]
          exact ⟨rfl, rfl⟩
      · rw [if_neg h3]
        exact ⟨rfl, rfl⟩

/-- Witness for the Jacobian-block theorem on a far (depth 5 ≥ near 1)
inlier point: translation block zero, rotation block −2·skew. -/
theorem jacobian_transform_blocks_witness :
    ((processPoint
        ⟨⟨[], ⟨Mat3.identity, 100, 100, Iso3.id, Iso3.id⟩⟩, ⟨5, 1, 1, 1, 1, 10, 1⟩,
          fun _ _ => Vec6.zero, fun _ => Iso3.id⟩ false Iso3.id
        ⟨⟨0, 0, 1⟩, ⟨0, 0, 5⟩, ⟨0, 0, 0⟩, some ⟨⟨0, 0, 5⟩, true⟩⟩).processed = true ∧
     (false = false ∨
      (processPoint
        ⟨⟨[], ⟨Mat3.identity, 100, 100, Iso3.id, Iso3.id⟩⟩, ⟨5, 1, 1, 1, 1, 10, 1⟩,
          fun _ _ => Vec6.zero, fun _ => Iso3.id⟩ false Iso3.id
        ⟨⟨0, 0, 1⟩, ⟨0, 0, 5⟩, ⟨0, 0, 0⟩, some ⟨⟨0, 0, 5⟩, true⟩⟩).is_outlier = false)) ∧
    ((processPoint
        ⟨⟨[], ⟨Mat3.identity, 100, 100, Iso3.id, Iso3.id⟩⟩, ⟨5, 1, 1, 1, 1, 10, 1⟩,
          fun _ _ => Vec6.zero, fun _ => Iso3.id⟩ false Iso3.id
        ⟨⟨0, 0, 1⟩, ⟨0, 0, 5⟩, ⟨0, 0, 0⟩, some ⟨⟨0, 0, 5⟩, true⟩⟩).jacobian_transform.left =
      (if (predictedPointInCamera Iso3.id
            ⟨⟨0, 0, 1⟩, ⟨0, 0, 5⟩, ⟨0, 0, 0⟩, some ⟨⟨0, 0, 5⟩, true⟩⟩).z < 1
       then Mat3.identity else Mat3.zero) ∧
     (processPoint
        ⟨⟨[], ⟨Mat3.identity, 100, 100, Iso3.id, Iso3.id⟩⟩, ⟨5, 1, 1, 1, 1, 10, 1⟩,
          fun _ _ => Vec6.zero, fun _ => Iso3.id⟩ false Iso3.id
        ⟨⟨0, 0, 1⟩, ⟨0, 0, 5⟩, ⟨0, 0, 0⟩, some ⟨⟨0, 0, 5⟩, true⟩⟩).jacobian_transform.right =
      (-2 : ℚ) • skew (predictedPointInCamera Iso3.id
        ⟨⟨0, 0, 1⟩, ⟨0, 0, 5⟩, ⟨0, 0, 0⟩, some ⟨⟨0, 0, 5⟩, true⟩⟩)) := by
  have hp : (processPoint
      ⟨⟨[], ⟨Mat3.identity, 100, 100, Iso3.id, Iso3.id⟩⟩, ⟨5, 1, 1, 1, 1, 10, 1⟩,
        fun _ _ => Vec6.zero, fun _ => Iso3.id⟩ false Iso3.id
      ⟨⟨0, 0, 1⟩, ⟨0, 0, 5⟩, ⟨0, 0, 0⟩, some ⟨⟨0, 0, 5⟩, true⟩⟩).processed = true := by
    norm_num [processPoint, predictedPointInCamera, usesLandmark, Iso3.apply, Iso3.id,
      Mat3.mulVec, Mat3.identity, Vec3.dot, Vec3.zero, vec3_add_def, assembleContribution,
      outOfImage, predictedPointInImage, predictedUVD, pointError, pointChi]
  exact ⟨⟨hp, Or.inl rfl⟩,
    jacobian_transform_blocks _ false Iso3.id _ hp (Or.inl rfl)⟩

/-- C9: the per-point information weight starts as the identity with its
depth entry set to 10 — diag(1,1,10) — and every subsequent modification
is a scalar rescaling, so the weight actually accumulated keeps the depth
component at ten times each pixel component. -/
theorem omega_depth_weight (ctx : UVDAlignerContext) (ign : Bool) (wtc : Iso3)
    (fp : FramePoint)
    (hp : (processPoint ctx ign wtc fp).processed = true) :
    initialOmega = Mat3.diag 1 1 10 ∧
    ∃ s : ℚ, (processPoint ctx ign wtc fp).omega_effective = s • Mat3.diag 1 1 10 := by
  have hone : ∀ M : Mat3, (1 : ℚ) • M = M := by
    intro M
    show Mat3.smul 1 M = M
    simp [Mat3.smul]
  have hsmul : ∀ (a b : ℚ) (M : Mat3), a • (b • M) = (a * b) • M := by
    intro a b M
    show Mat3.smul a (Mat3.smul b M) = Mat3.smul (a * b) M
    simp [Mat3.smul, mul_assoc]
  have hio : initialOmega = Mat3.diag 1 1 10 := by
    simp [initialOmega, Mat3.identity, Mat3.diag]
  refine ⟨hio, ?_⟩
  have hob : (if usesLandmark fp = true then initialOmega
      else ctx.parameters.weight_framepoint • initialOmega) =
      (if usesLandmark fp = true then (1 : ℚ)
       else ctx.parameters.weight_framepoint) • Mat3.diag 1 1 10 := by
    by_cases hu : usesLandmark fp = true
    · rw [if_pos hu, if_pos hu, hone]
      exact hio
    · rw [if_neg hu, if_neg hu, hio]
  revert hp
  simp only [processPoint]
  rw [hob]
  generalize (if usesLandmark fp = true then (1 : ℚ)
      else ctx.parameters.weight_framepoint) = c
  split_ifs with h1 h2 h3 h4 <;> intro hp
  · simp [skippedPointResult] at hp
  · simp [skippedPointResult] at hp
  · refine ⟨0, ?_⟩
    simp only [skippedPointResult]
    show Mat3.zero = Mat3.smul 0 (Mat3.diag 1 1 10)
    simp [Mat3.smul, Mat3.zero, Mat3.diag]
  · simp only [assembleContribution]
    by_cases h5 : (predictedPointInCamera wtc fp).z <
        ctx.parameters.maximum_depth_near_meters
    · rw [if_pos h5, hsmul, hsmul]
      exact ⟨_, rfl⟩
    · rw [if_neg h5, hsmul, hsmul]
      exact ⟨_, rfl⟩
  · simp only [assembleContribution]
    by_cases h5 : (predictedPointInCamera wtc fp).z <
        ctx.parameters.maximum_depth_near_meters
    · rw [if_pos h5, hsmul]
      exact ⟨_, rfl⟩
    · rw [if_neg h5, hsmul]
      exact ⟨_, rfl⟩

/-- Witness for the omega-weight theorem on a processed point (fallback
weight absent, depth 5 in the far band). -/
theorem omega_depth_weight_witness :
    ((processPoint
        ⟨⟨[], ⟨Mat3.identity, 100, 100, Iso3.id, Iso3.id⟩⟩, ⟨5, 1, 1, 1, 1, 10, 1⟩,
          fun _ _ => Vec6.zero, fun _ => Iso3.id⟩ false Iso3.id
        ⟨⟨0, 0, 1⟩, ⟨0, 0, 5⟩, ⟨0, 0, 0⟩, some ⟨⟨0, 0, 5⟩, true⟩⟩).processed = true) ∧
    (initialOmega = Mat3.diag 1 1 10 ∧
     ∃ s : ℚ, (processPoint
        ⟨⟨[], ⟨Mat3.identity, 100, 100, Iso3.id, Iso3.id⟩⟩, ⟨5, 1, 1, 1, 1, 10, 1⟩,
          fun _ _ => Vec6.zero, fun _ => Iso3.id⟩ false Iso3.id
        ⟨⟨0, 0, 1⟩, ⟨0, 0, 5⟩, ⟨0, 0, 0⟩, some ⟨⟨0, 0, 5⟩, true⟩⟩).omega_effective =
      s • Mat3.diag 1 1 10) := by
  have hp : (processPoint
      ⟨⟨[], ⟨Mat3.identity, 100, 100, Iso3.id, Iso3.id⟩⟩, ⟨5, 1, 1, 1, 1, 10, 1⟩,
        fun _ _ => Vec6.zero, fun _ => Iso3.id⟩ false Iso3.id
      ⟨⟨0, 0, 1⟩, ⟨0, 0, 5⟩, ⟨0, 0, 0⟩, some ⟨⟨0, 0, 5⟩, true⟩⟩).processed = true := by
    norm_num [processPoint, predictedPointInCamera, usesLandmark, Iso3.apply, Iso3.id,
      Mat3.mulVec, Mat3.identity, Vec3.dot, Vec3.zero, vec3_add_def, assembleContribution,
      outOfImage, predictedPointInImage, predictedUVD, pointError, pointChi]
  exact ⟨hp, omega_depth_weight _ false Iso3.id _ hp⟩

end ProSLAM
